import Mathlib

/-!
Verification of the zrag document-to-chunk processing pipeline.

This file gives a shallow embedding, in Lean 4, of the parts of the zrag
code base that the verified properties talk about:

* `src/utils/chunking.ts` — the `TextChunker` class (character, sentence and
  paragraph strategies, together with the sentence/paragraph splitters);
* `src/utils/chunk-content-resolver.ts` — the `ChunkContentResolver`
  (file-content cache, integrity validation, chunk text extraction);
* the `ChunkProcessingService` (linear per-chunk pipeline, batch
  aggregation) and its `Semaphore`;
* the retry combinators `ContextService.generateContextWithRetry`,
  `EmbeddingService.retryOperation` and `BaseAIProvider.withRetry`.

Texts are modelled as `List Char`; JavaScript numbers that hold positions
are modelled as `Int` (every integer appearing in these computations is
exact in an IEEE double).  Stateful code is modelled by explicit state
passing; the bounded-parallelism behaviour of `processChunks` is modelled
as a labelled transition system over the semaphore plus task states.

Loops are modelled as recursive functions.  Where a JavaScript loop makes
progress by a measure that is easy to express (`start` strictly grows and
is bounded by the text length) the recursion is driven by a fuel argument
that provably suffices (`chunkByCharAux_fuel` shows the result does not
depend on the fuel once it exceeds the measure).  The sentence and
paragraph chunkers keep an explicit fuel argument because their loops do
not always terminate (`chunkByParagraph` can loop forever re-emitting an
overlap paragraph); theorems about them are stated for every fuel value,
which covers every prefix of the (possibly infinite) execution.
-/

namespace ZRag

/-! ## JavaScript string primitives -/

/-- JavaScript whitespace, restricted to the characters that can occur in
the texts this code base manipulates (`\s` of JS regexes also matches some
exotic Unicode space characters; they behave identically here). -/
def isJsWs (c : Char) : Bool :=
  c == ' ' || c == '\t' || c == '\n' || c == '\r' || c == '\x0b' || c == '\x0c'

/-- `String.prototype.trim`. -/
def jsTrim (l : List Char) : List Char :=
  ((l.dropWhile isJsWs).reverse.dropWhile isJsWs).reverse

/-- Normalize a JS slice index: negative indices count from the end,
out-of-range indices are clamped. -/
def jsSliceIdx (len : Nat) (i : Int) : Nat :=
  if i < 0 then (len + i).toNat else min i.toNat len

/-- `String.prototype.slice` on a character list. -/
def jsSlice (l : List Char) (a b : Int) : List Char :=
  (l.take (jsSliceIdx l.length b)).drop (jsSliceIdx l.length a)

/-- `text[i]` character access (only used at positions `< length`). -/
def charAt (l : List Char) (i : Nat) : Char :=
  l.getD i '\x00'

/-! ## `TextChunker` data model (`src/utils/chunking.ts`) -/

/-- The `strategy` field of `ChunkingOptions`. -/
inductive Strategy where
  | character
  | sentence
  | paragraph
deriving Repr, DecidableEq

/-- `ChunkingOptions` from `src/utils/chunking.ts`. -/
structure ChunkingOptions where
  strategy : Strategy
  chunkSize : Int
  overlap : Int
deriving Repr, DecidableEq

/-- `TextChunk` from `src/utils/chunking.ts`. -/
structure TextChunk where
  text : List Char
  startPosition : Int
  endPosition : Int
  index : Nat
deriving Repr, DecidableEq

/-- A chunking configuration is valid exactly when
`TextChunker.validateOptions` accepts it: positive size, non-negative
overlap smaller than the size (the strategy enumeration is total here, so
the unknown-strategy rejection has no inhabitant). -/
def ValidOptions (opts : ChunkingOptions) : Prop :=
  0 < opts.chunkSize ∧ 0 ≤ opts.overlap ∧ opts.overlap < opts.chunkSize

instance (opts : ChunkingOptions) : Decidable (ValidOptions opts) := by
  unfold ValidOptions; infer_instance

/-! ## Character strategy (`TextChunker.chunkByCharacter`) -/

/-- The `while (startPosition < text.length)` loop of `chunkByCharacter`.
Each iteration pushes the window `[start, min (start+size) len)` (with its
text trimmed), advances `start` to `max (start + size - overlap) (start + 1)`,
and breaks when the new start has not passed the old window end
(`if (startPosition >= endPosition) break`).  The loop advances `start` by
at least 1 per iteration, so `text.length + 1` fuel always suffices
(`chunkByCharAux_fuel` below makes the fuel-independence precise). -/
def chunkByCharAux (text : List Char) (chunkSize overlap : Int) :
    Nat → Int → Nat → List TextChunk
  | 0, _, _ => []
  | fuel + 1, start, idx =>
    if start < (text.length : Int) then
      let endPos := min (start + chunkSize) (text.length : Int)
      let c : TextChunk := ⟨jsTrim (jsSlice text start endPos), start, endPos, idx⟩
      let start' := max (start + chunkSize - overlap) (start + 1)
      if start' ≥ endPos then [c]
      else c :: chunkByCharAux text chunkSize overlap fuel start' (idx + 1)
    else []

theorem chunkByCharAux_stop (text : List Char) (chunkSize overlap : Int)
    (fuel : Nat) (start : Int) (idx : Nat) (h : ¬ start < (text.length : Int)) :
    chunkByCharAux text chunkSize overlap fuel start idx = [] := by
  cases fuel <;> simp [chunkByCharAux, h]

/-- The window loop's result does not depend on the fuel, as long as the
fuel exceeds `text.length - start` (each iteration advances `start` by at
least one).  This justifies running it with fuel `text.length + 1`. -/
theorem chunkByCharAux_fuel (text : List Char) (chunkSize overlap : Int) :
    ∀ (f1 f2 : Nat) (start : Int) (idx : Nat),
      (text.length : Int) - start < f1 → (text.length : Int) - start < f2 →
      chunkByCharAux text chunkSize overlap f1 start idx
        = chunkByCharAux text chunkSize overlap f2 start idx := by
  intro f1
  induction f1 with
  | zero =>
    intro f2 start idx h1 h2
    rw [chunkByCharAux_stop _ _ _ _ _ _ (by omega),
      chunkByCharAux_stop _ _ _ _ _ _ (by omega)]
  | succ f ih =>
    intro f2 start idx h1 h2
    by_cases hlt : start < (text.length : Int)
    · obtain ⟨g, rfl⟩ : ∃ g, f2 = g + 1 := ⟨f2 - 1, by omega⟩
      simp only [chunkByCharAux, if_pos hlt]
      split
      · rfl
      · next hge =>
        rw [ih g (max (start + chunkSize - overlap) (start + 1)) (idx + 1)
          (by omega) (by omega)]
    · rw [chunkByCharAux_stop _ _ _ _ _ _ hlt, chunkByCharAux_stop _ _ _ _ _ _ hlt]

/-- `TextChunker.chunkByCharacter`: run the window loop from position `0`,
then drop chunks whose trimmed text is empty
(`chunks.filter(chunk => chunk.text.length > 0)`). -/
def chunkByCharacter (opts : ChunkingOptions) (text : List Char) : List TextChunk :=
  (chunkByCharAux text opts.chunkSize opts.overlap (text.length + 1) 0 0).filter
    (fun c => c.text.length > 0)

/-- One unfolding of the window loop, in a shape convenient for computing
concrete runs. -/
theorem chunkByCharAux_step (text : List Char) (chunkSize overlap : Int)
    (fuel : Nat) (start : Int) (idx : Nat)
    (h : start < (text.length : Int)) (hf : 0 < fuel) :
    chunkByCharAux text chunkSize overlap fuel start idx =
      ⟨jsTrim (jsSlice text start (min (start + chunkSize) (text.length : Int))),
        start, min (start + chunkSize) (text.length : Int), idx⟩ ::
      (if max (start + chunkSize - overlap) (start + 1)
            ≥ min (start + chunkSize) (text.length : Int) then []
       else chunkByCharAux text chunkSize overlap (fuel - 1)
              (max (start + chunkSize - overlap) (start + 1)) (idx + 1)) := by
  obtain ⟨g, rfl⟩ : ∃ g, fuel = g + 1 := ⟨fuel - 1, by omega⟩
  simp only [chunkByCharAux, if_pos h]
  split <;> simp


/-! ## Claims C2 and C8: character-strategy windowing -/

/-- Claim C2 (code bug): the claim states that for the character strategy
with overlap 0 the chunk spans exactly tile the normalized input and
concatenating the chunks' text reproduces it.  The code violates this: the
`if (startPosition >= endPosition) break` guard fires as soon as the new
start equals the old window end, which with overlap 0 happens after the
very first window, so only one chunk is produced.  Evaluating the code on
the input "abcd" with size 2, overlap 0: the result is the single chunk
"ab" with span [0,2), and concatenating the chunk texts gives "ab", not
"abcd". -/
theorem claim_C2 :
    chunkByCharacter ⟨.character, 2, 0⟩ "abcd".toList
      = [⟨"ab".toList, 0, 2, 0⟩] ∧
    (chunkByCharacter ⟨.character, 2, 0⟩ "abcd".toList).foldr
        (fun c acc => c.text ++ acc) [] ≠ "abcd".toList := by
  decide

set_option maxRecDepth 40000 in
/-- Claim C8 (counterexample): on a concrete 250-character input with
`size = 100, overlap = 20`, `chunkByCharacter` returns four chunks with
spans [0,100), [80,180), [160,250), [240,250) — not the three spans
[0,100), [80,180), [160,250) stated by the claim.  The window loop keeps
running because after the window [160,250) the new start 240 is still
below the old window end 250. -/
theorem claim_C8_counterexample :
    (chunkByCharacter ⟨.character, 100, 20⟩ (List.replicate 250 'a')).map
      (fun c => (c.startPosition, c.endPosition))
      = [(0, 100), (80, 180), (160, 250), (240, 250)] := by
  decide

/-- Claim C8 (amended): for every 250-character input, the character
window loop with `size = 100, overlap = 20` produces exactly the four
windows [0,100), [80,180), [160,250), [240,250); `chunkByCharacter`
returns these minus any window whose text trims to empty. -/
theorem claim_C8 (text : List Char) (h : text.length = 250) :
    (chunkByCharAux text 100 20 (text.length + 1) 0 0).map
      (fun c => (c.startPosition, c.endPosition))
      = [(0, 100), (80, 180), (160, 250), (240, 250)] := by
  rw [h]
  rw [chunkByCharAux_step text 100 20 251 0 0 (by rw [h]; norm_num) (by norm_num)]
  simp only [h]; norm_num
  rw [chunkByCharAux_step text 100 20 250 80 1 (by rw [h]; norm_num) (by norm_num)]
  simp only [h]; norm_num
  rw [chunkByCharAux_step text 100 20 249 160 2 (by rw [h]; norm_num) (by norm_num)]
  simp only [h]; norm_num
  rw [chunkByCharAux_step text 100 20 248 240 3 (by rw [h]; norm_num) (by norm_num)]
  simp only [h]; norm_num

set_option maxRecDepth 40000 in
/-- Claim C8 witness: the amended theorem applied to the concrete
250-character input of 250 'a' characters. -/
theorem claim_C8_witness :
    (List.replicate 250 'a').length = 250 ∧
    (chunkByCharAux (List.replicate 250 'a') 100 20
        ((List.replicate 250 'a').length + 1) 0 0).map
      (fun c => (c.startPosition, c.endPosition))
      = [(0, 100), (80, 180), (160, 250), (240, 250)] :=
  ⟨by decide, claim_C8 (List.replicate 250 'a') (by decide)⟩

/-! ## Pipeline data model (`ChunkProcessingService`, `src/types/document.ts`) -/

/-- Chunk `status` values from `src/types/document.ts`. -/
inductive ChunkStatus where
  | pending
  | contextualized
  | embedded
  | complete
  | failed
deriving Repr, DecidableEq, BEq

/-- The fields of `Chunk` (from `src/types/document.ts`) that the
processing pipeline reads: its id, ordinal index, offsets, declared
length, and status snapshot. -/
structure Chunk where
  id : Nat
  chunk_index : Nat
  start_position : Int
  end_position : Int
  chunk_length : Int
  status : ChunkStatus
deriving Repr, DecidableEq

/-- The persistent state the pipeline touches through `DatabaseService`:
`updateChunk` writes of chunk statuses and `insertEmbedding` /
`getEmbeddingByChunkId` rows.  Both maps are keyed by chunk id. -/
structure Db where
  statuses : List (Nat × ChunkStatus)
  embeddings : List Nat
deriving Repr, DecidableEq

/-- Key lookup in the status rows (first matching row wins, as for a
primary-key table). -/
def lookupStatus : List (Nat × ChunkStatus) → Nat → Option ChunkStatus
  | [], _ => none
  | (k, st) :: t, j => if j = k then some st else lookupStatus t j

/-- Rewrite the status of every row keyed by `i` (an UPDATE by primary
key; a miss updates nothing). -/
def updateRows : List (Nat × ChunkStatus) → Nat → ChunkStatus → List (Nat × ChunkStatus)
  | [], _, _ => []
  | (k, w) :: t, i, st =>
    if k = i then (i, st) :: updateRows t i st else (k, w) :: updateRows t i st

/-- Membership test on the embedding rows' chunk ids. -/
def memberNat : List Nat → Nat → Bool
  | [], _ => false
  | k :: t, j => j == k || memberNat t j

def Db.statusOf (db : Db) (id : Nat) : Option ChunkStatus :=
  lookupStatus db.statuses id

def Db.hasEmbedding (db : Db) (id : Nat) : Bool :=
  memberNat db.embeddings id

/-- `db.updateChunk(id, {status: st, ...})`. -/
def Db.updateChunk (db : Db) (id : Nat) (st : ChunkStatus) : Db :=
  { db with statuses := updateRows db.statuses id st }

/-- `db.insertEmbedding({chunk_id: id, ...})`. -/
def Db.insertEmbedding (db : Db) (id : Nat) : Db :=
  { db with embeddings := id :: db.embeddings }

/-- Outcome of one collaborator stage call
(`ContextService.generateContext` / `EmbeddingService.generateEmbedding`):
both return a result record with a `success` flag, a token count on
success and an error string on failure — they do not throw. -/
inductive StageOutcome where
  | ok (tokens : Nat)
  | fail (err : String)
deriving Repr, DecidableEq

/-- The two stage collaborators, resolved per chunk id.  Each chunk's
pipeline calls each stage at most once, so a function of the chunk id
captures one run's behaviour. -/
structure Providers where
  context : Nat → StageOutcome
  embedding : Nat → StageOutcome

/-- `ChunkProcessingOptions` fields the pipeline logic reads
(`maxParallelChunks` only feeds the semaphore; `verbose` only logs). -/
structure ProcOptions where
  maxParallelChunks : Nat
  skipContext : Bool
  skipEmbedding : Bool
deriving Repr, DecidableEq

/-- `ChunkProcessingResult`.  `contextTokens`/`embeddingTokens` are only
set when positive (`if (contextTokens > 0) result.contextTokens = ...`),
mirrored here by `Option`; likewise `error` is only set when a stage
recorded one. -/
structure ChunkProcessingResult where
  chunkId : Nat
  success : Bool
  error : Option String
  contextGenerated : Bool
  embeddingGenerated : Bool
  contextTokens : Option Nat
  embeddingTokens : Option Nat
deriving Repr, DecidableEq

/-- The state a stage attempt leaves behind: whether it generated its
artifact, its token count, the `lastError` variable, and the database. -/
structure StageState where
  generated : Bool
  tokens : Nat
  lastError : Option String
  db : Db
deriving Repr, DecidableEq

/-- Step 1 of `processChunkLinear`: run the context stage unless it is
skipped or the chunk's status snapshot says it is already
contextualized/complete.  On success the chunk's status row is set to
`'contextualized'`; on failure only `lastError` is recorded (no status
write). -/
def contextStep (pr : Providers) (opts : ProcOptions) (db : Db) (c : Chunk) :
    StageState :=
  if !opts.skipContext && !(c.status == .contextualized)
      && !(c.status == .complete) then
    match pr.context c.id with
    | .ok tk => ⟨true, tk, none, db.updateChunk c.id .contextualized⟩
    | .fail e => ⟨false, 0, some e, db⟩
  else ⟨false, 0, none, db⟩

/-- Step 2 of `processChunkLinear`: run the embedding stage unless it is
skipped or an embedding row already exists.  On success the embedding is
inserted and the status row is set to `'complete'` when context was
generated in this run (and not skipped) or the snapshot was already
`'contextualized'`, else to `'embedded'`; on failure only `lastError` is
overwritten. -/
def embeddingStep (pr : Providers) (opts : ProcOptions) (s1 : StageState)
    (c : Chunk) : StageState :=
  if !opts.skipEmbedding && !(s1.db.hasEmbedding c.id) then
    match pr.embedding c.id with
    | .ok tk =>
      let finalStatus : ChunkStatus :=
        if (!opts.skipContext && s1.generated)
            || c.status == .contextualized then .complete else .embedded
      ⟨true, tk, s1.lastError,
        (s1.db.insertEmbedding c.id).updateChunk c.id finalStatus⟩
    | .fail e => ⟨false, 0, some e, s1.db⟩
  else ⟨false, 0, s1.lastError, s1.db⟩

/-- `ChunkProcessingService.processChunkLinear`: drive one chunk through
the two stages and assemble its `ChunkProcessingResult`.  The final
`success` recomputes `expectedEmbedding` against the *current* database
(so a successful embedding insert makes it false).  Stage failures never
write a status; in particular no path writes `'failed'`.  The `try/catch`
around the body is dead in this model because neither collaborator nor
the db throws; its result shape is the same. -/
def processChunkLinear (pr : Providers) (opts : ProcOptions) (db : Db)
    (chunk : Chunk) : ChunkProcessingResult × Db :=
  let s1 := contextStep pr opts db chunk
  let s2 := embeddingStep pr opts s1 chunk
  let expectedContext : Bool := !opts.skipContext
    && !(chunk.status == .contextualized) && !(chunk.status == .complete)
  let expectedEmbedding : Bool := !opts.skipEmbedding
    && !(s2.db.hasEmbedding chunk.id)
  let success := (!expectedContext || s1.generated)
    && (!expectedEmbedding || s2.generated)
  (⟨chunk.id, success, s2.lastError, s1.generated, s2.generated,
    if s1.tokens > 0 then some s1.tokens else none,
    if s2.tokens > 0 then some s2.tokens else none⟩, s2.db)

/-- The `pendingChunks` filter at the top of `processChunks`. -/
def pendingFilter (db : Db) (opts : ProcOptions) (chunks : List Chunk) : List Chunk :=
  chunks.filter fun chunk =>
    if opts.skipContext && opts.skipEmbedding then false
    else if opts.skipContext then !(db.hasEmbedding chunk.id)
    else if opts.skipEmbedding then
      !(chunk.status == .contextualized) && !(chunk.status == .complete)
    else !(chunk.status == .complete)

/-- The mutable aggregation state of `processChunks` (`results`,
`totalTokensUsed` and the four counters); `totalProcessingTime` is
wall-clock time and not modelled. -/
structure Agg where
  results : List ChunkProcessingResult
  totalTokensUsed : Nat
  successCount : Nat
  failureCount : Nat
  contextSuccessCount : Nat
  embeddingSuccessCount : Nat
deriving Repr, DecidableEq

/-- What the body of the per-chunk task does with a finished result:
`results.push(result)` and the counter updates guarded by
`result.success` (the token additions are guarded by the truthiness of
the token fields, i.e. by the `Option` being set). -/
def stepAgg (a : Agg) (r : ChunkProcessingResult) : Agg :=
  { results := a.results ++ [r]
    totalTokensUsed := a.totalTokensUsed +
      (if r.success then r.contextTokens.getD 0 + r.embeddingTokens.getD 0 else 0)
    successCount := a.successCount + (if r.success then 1 else 0)
    failureCount := a.failureCount + (if r.success then 0 else 1)
    contextSuccessCount := a.contextSuccessCount +
      (if r.success && r.contextGenerated then 1 else 0)
    embeddingSuccessCount := a.embeddingSuccessCount +
      (if r.success && r.embeddingGenerated then 1 else 0) }

/-- Sequential execution of the pending chunks' pipelines.  The real code
interleaves the pipelines under the semaphore, but every database access
and every counter update is synchronous, and a pipeline writes only rows
keyed by its own chunk id, so for distinct chunk ids any interleaving
produces these same per-chunk results (this independence is exactly what
`claim_C3` proves). -/
def processChunksAux (pr : Providers) (opts : ProcOptions) :
    List Chunk → Db → Agg → Agg × Db
  | [], db, a => (a, db)
  | c :: rest, db, a =>
    let rd := processChunkLinear pr opts db c
    processChunksAux pr opts rest rd.2 (stepAgg a rd.1)

/-- `BatchChunkProcessingResult` (without the wall-clock
`totalProcessingTime`). -/
structure BatchResult where
  results : List ChunkProcessingResult
  totalTokensUsed : Nat
  successCount : Nat
  failureCount : Nat
  contextSuccessCount : Nat
  embeddingSuccessCount : Nat
deriving Repr, DecidableEq

/-- `ChunkProcessingService.processChunks`: filter the chunks that still
need work, then run each pending chunk's pipeline and aggregate.  The
early return for an empty pending list yields the same all-zero result as
folding over nothing. -/
def processChunks (pr : Providers) (opts : ProcOptions) (chunks : List Chunk)
    (db : Db) : BatchResult × Db :=
  let pending := pendingFilter db opts chunks
  let ad := processChunksAux pr opts pending db ⟨[], 0, 0, 0, 0, 0⟩
  (⟨ad.1.results, ad.1.totalTokensUsed, ad.1.successCount, ad.1.failureCount,
    ad.1.contextSuccessCount, ad.1.embeddingSuccessCount⟩, ad.2)

/-! ## Claim C10: batch aggregation invariants -/

/-- The aggregation invariant: counters agree with a recount over the
collected results, and `totalTokensUsed` sums context+embedding token
fields over successful results only. -/
def AggInv (a : Agg) : Prop :=
  a.successCount = (a.results.filter (fun r => r.success)).length ∧
  a.failureCount = (a.results.filter (fun r => !r.success)).length ∧
  a.successCount + a.failureCount = a.results.length ∧
  a.totalTokensUsed =
    ((a.results.filter (fun r => r.success)).map
      (fun r => r.contextTokens.getD 0 + r.embeddingTokens.getD 0)).sum

theorem stepAgg_inv {a : Agg} (h : AggInv a) (r : ChunkProcessingResult) :
    AggInv (stepAgg a r) := by
  obtain ⟨h1, h2, h3, h4⟩ := h
  by_cases hs : r.success <;>
    simp [AggInv, stepAgg, List.filter_append, hs, h1, h2, h3, h4] <;> omega

theorem processChunksAux_inv (pr : Providers) (opts : ProcOptions) :
    ∀ (l : List Chunk) (db : Db) (a : Agg), AggInv a →
      AggInv (processChunksAux pr opts l db a).1 := by
  intro l
  induction l with
  | nil => intro db a h; exact h
  | cons c rest ih =>
    intro db a h
    exact ih _ _ (stepAgg_inv h _)

/-- Claim C10: in every `BatchChunkProcessingResult` returned by
`processChunks`, `successCount` is the number of results with
`success = true`, `failureCount` the number with `success = false` (so
they sum to `results.length`), and `totalTokensUsed` is the sum of
`contextTokens` plus `embeddingTokens` over the successful results only —
tokens recorded for a chunk that ultimately failed are not counted. -/
theorem claim_C10 (pr : Providers) (opts : ProcOptions) (chunks : List Chunk)
    (db : Db) :
    (processChunks pr opts chunks db).1.successCount
        = ((processChunks pr opts chunks db).1.results.filter
            (fun r => r.success)).length ∧
    (processChunks pr opts chunks db).1.failureCount
        = ((processChunks pr opts chunks db).1.results.filter
            (fun r => !r.success)).length ∧
    (processChunks pr opts chunks db).1.successCount
        + (processChunks pr opts chunks db).1.failureCount
        = (processChunks pr opts chunks db).1.results.length ∧
    (processChunks pr opts chunks db).1.totalTokensUsed
        = (((processChunks pr opts chunks db).1.results.filter
              (fun r => r.success)).map
            (fun r => r.contextTokens.getD 0 + r.embeddingTokens.getD 0)).sum := by
  have h := processChunksAux_inv pr opts (pendingFilter db opts chunks) db
    ⟨[], 0, 0, 0, 0, 0⟩ (by simp [AggInv])
  obtain ⟨h1, h2, h3, h4⟩ := h
  exact ⟨h1, h2, h3, h4⟩

/-! ## Database frame lemmas -/

theorem lookupStatus_updateRows_ne (i j : Nat) (st : ChunkStatus) (h : j ≠ i) :
    ∀ l : List (Nat × ChunkStatus),
      lookupStatus (updateRows l i st) j = lookupStatus l j
  | [] => rfl
  | (k, w) :: t => by
    have ih := lookupStatus_updateRows_ne i j st h t
    by_cases hk : k = i
    · subst hk
      simp [updateRows, lookupStatus, h, ih]
    · by_cases hjk : j = k <;> simp [updateRows, lookupStatus, hk, hjk, ih]

theorem lookupStatus_updateRows_ne_st (i j : Nat) (st x : ChunkStatus)
    (hx : x ≠ st) :
    ∀ l : List (Nat × ChunkStatus),
      lookupStatus (updateRows l i st) j = some x → lookupStatus l j = some x
  | [] => fun h => h
  | (k, w) :: t => by
    intro h
    have ih := lookupStatus_updateRows_ne_st i j st x hx t
    by_cases hk : k = i
    · subst hk
      by_cases hjk : j = k
      · subst hjk
        simp [updateRows, lookupStatus] at h
        exact absurd h.symm hx
      · simp [updateRows, lookupStatus, hjk] at h ⊢
        exact ih h
    · by_cases hjk : j = k
      · subst hjk
        simp [updateRows, lookupStatus, hk] at h ⊢
        exact h
      · simp [updateRows, lookupStatus, hk, hjk] at h ⊢
        exact ih h

theorem Db.statusOf_updateChunk_ne (db : Db) (i j : Nat) (st : ChunkStatus)
    (h : j ≠ i) : (db.updateChunk i st).statusOf j = db.statusOf j :=
  lookupStatus_updateRows_ne i j st h db.statuses

theorem Db.statusOf_updateChunk_ne_st (db : Db) (i j : Nat) (st x : ChunkStatus)
    (hx : x ≠ st) (h : (db.updateChunk i st).statusOf j = some x) :
    db.statusOf j = some x :=
  lookupStatus_updateRows_ne_st i j st x hx db.statuses h

theorem Db.hasEmbedding_updateChunk (db : Db) (i j : Nat) (st : ChunkStatus) :
    (db.updateChunk i st).hasEmbedding j = db.hasEmbedding j := rfl

theorem Db.statusOf_insertEmbedding (db : Db) (i j : Nat) :
    (db.insertEmbedding i).statusOf j = db.statusOf j := rfl

theorem Db.hasEmbedding_insertEmbedding_ne (db : Db) (i j : Nat) (h : j ≠ i) :
    (db.insertEmbedding i).hasEmbedding j = db.hasEmbedding j := by
  simp [Db.insertEmbedding, Db.hasEmbedding, memberNat, h]

theorem Db.hasEmbedding_insertEmbedding_self (db : Db) (i : Nat) :
    (db.insertEmbedding i).hasEmbedding i = true := by
  simp [Db.insertEmbedding, Db.hasEmbedding, memberNat]

/-! ## Shape lemmas for the per-chunk pipeline -/

/-- The context step either leaves the database alone or sets the chunk's
own status row to `'contextualized'`. -/
theorem contextStep_db (pr : Providers) (opts : ProcOptions) (db : Db)
    (c : Chunk) :
    (contextStep pr opts db c).db = db ∨
      (contextStep pr opts db c).db = db.updateChunk c.id .contextualized := by
  unfold contextStep
  split
  · cases pr.context c.id <;> simp
  · simp

/-- The embedding step either leaves the database alone or inserts the
chunk's own embedding row and sets its own status row to `'complete'` or
`'embedded'` (never `'failed'`). -/
theorem embeddingStep_db (pr : Providers) (opts : ProcOptions)
    (s1 : StageState) (c : Chunk) :
    (embeddingStep pr opts s1 c).db = s1.db ∨
      ∃ st, st ≠ ChunkStatus.failed ∧
        (embeddingStep pr opts s1 c).db
          = (s1.db.insertEmbedding c.id).updateChunk c.id st := by
  unfold embeddingStep
  split
  · cases pr.embedding c.id with
    | ok tk =>
      refine Or.inr ⟨_, ?_, rfl⟩
      split <;> simp
    | fail e => simp
  · simp

/-- The non-database components of the context step do not depend on the
database. -/
theorem contextStep_indep (pr : Providers) (opts : ProcOptions)
    (db db' : Db) (c : Chunk) :
    (contextStep pr opts db c).generated = (contextStep pr opts db' c).generated ∧
    (contextStep pr opts db c).tokens = (contextStep pr opts db' c).tokens ∧
    (contextStep pr opts db c).lastError = (contextStep pr opts db' c).lastError := by
  unfold contextStep
  split
  · cases pr.context c.id <;> simp
  · simp

theorem contextStep_hasEmbedding (pr : Providers) (opts : ProcOptions)
    (db : Db) (c : Chunk) (j : Nat) :
    (contextStep pr opts db c).db.hasEmbedding j = db.hasEmbedding j := by
  rcases contextStep_db pr opts db c with h | h
  · rw [h]
  · rw [h, Db.hasEmbedding_updateChunk]

/-- The embedding step is congruent in the stage-relevant parts of its
input state: equal `generated`/`lastError` and an equal answer to "is
there an embedding row for this chunk" yield equal stage outcomes. -/
theorem embeddingStep_congr (pr : Providers) (opts : ProcOptions)
    (s1 s1' : StageState) (c : Chunk)
    (hg : s1.generated = s1'.generated) (hl : s1.lastError = s1'.lastError)
    (he : s1.db.hasEmbedding c.id = s1'.db.hasEmbedding c.id) :
    (embeddingStep pr opts s1 c).generated = (embeddingStep pr opts s1' c).generated ∧
    (embeddingStep pr opts s1 c).tokens = (embeddingStep pr opts s1' c).tokens ∧
    (embeddingStep pr opts s1 c).lastError = (embeddingStep pr opts s1' c).lastError ∧
    (embeddingStep pr opts s1 c).db.hasEmbedding c.id
      = (embeddingStep pr opts s1' c).db.hasEmbedding c.id := by
  unfold embeddingStep
  rw [he, hg, hl]
  split
  · cases pr.embedding c.id <;>
      simp [Db.hasEmbedding_updateChunk, Db.hasEmbedding_insertEmbedding_self, he]
  · simp [he]

/-- A chunk's pipeline result depends on the database only through the
presence of an embedding row for its own chunk id. -/
theorem processChunkLinear_congr (pr : Providers) (opts : ProcOptions)
    (db db' : Db) (c : Chunk)
    (h : db.hasEmbedding c.id = db'.hasEmbedding c.id) :
    (processChunkLinear pr opts db c).1 = (processChunkLinear pr opts db' c).1 := by
  have hind := contextStep_indep pr opts db db' c
  have hemb : (contextStep pr opts db c).db.hasEmbedding c.id
      = (contextStep pr opts db' c).db.hasEmbedding c.id := by
    rw [contextStep_hasEmbedding, contextStep_hasEmbedding, h]
  have h2 := embeddingStep_congr pr opts (contextStep pr opts db c)
    (contextStep pr opts db' c) c hind.1 hind.2.2 hemb
  unfold processChunkLinear
  simp only [hind.1, hind.2.1, hind.2.2, h2.1, h2.2.1, h2.2.2.1, h2.2.2.2]

theorem processChunkLinear_chunkId (pr : Providers) (opts : ProcOptions)
    (db : Db) (c : Chunk) : (processChunkLinear pr opts db c).1.chunkId = c.id := rfl

/-- A chunk's pipeline writes only database rows keyed by its own id. -/
theorem processChunkLinear_frame (pr : Providers) (opts : ProcOptions)
    (db : Db) (c : Chunk) (id : Nat) (h : id ≠ c.id) :
    (processChunkLinear pr opts db c).2.statusOf id = db.statusOf id ∧
    (processChunkLinear pr opts db c).2.hasEmbedding id = db.hasEmbedding id := by
  have hdb2 : (processChunkLinear pr opts db c).2
      = (embeddingStep pr opts (contextStep pr opts db c) c).db := rfl
  rw [hdb2]
  rcases embeddingStep_db pr opts (contextStep pr opts db c) c with h2 | ⟨st, _, h2⟩ <;>
    rcases contextStep_db pr opts db c with h1 | h1 <;>
      simp [h2, h1, Db.statusOf_updateChunk_ne _ _ _ _ h,
        Db.hasEmbedding_updateChunk, Db.statusOf_insertEmbedding,
        Db.hasEmbedding_insertEmbedding_ne _ _ _ h]

/-- A chunk's pipeline never writes `'failed'` into any status row. -/
theorem processChunkLinear_no_failed_write (pr : Providers) (opts : ProcOptions)
    (db : Db) (c : Chunk) (id : Nat)
    (h : (processChunkLinear pr opts db c).2.statusOf id = some .failed) :
    db.statusOf id = some .failed := by
  have hdb2 : (processChunkLinear pr opts db c).2
      = (embeddingStep pr opts (contextStep pr opts db c) c).db := rfl
  rw [hdb2] at h
  rcases embeddingStep_db pr opts (contextStep pr opts db c) c with h2 | ⟨st, hst, h2⟩ <;>
    rcases contextStep_db pr opts db c with h1 | h1 <;>
      rw [h2] at h
  · rw [h1] at h; exact h
  · rw [h1] at h
    exact Db.statusOf_updateChunk_ne_st _ _ _ _ _ (by simp) h
  · rw [h1] at h
    have := Db.statusOf_updateChunk_ne_st _ _ _ _ _ (fun hx => hst hx.symm) h
    rw [Db.statusOf_insertEmbedding] at this
    exact this
  · rw [h1] at h
    have := Db.statusOf_updateChunk_ne_st _ _ _ _ _ (fun hx => hst hx.symm) h
    rw [Db.statusOf_insertEmbedding] at this
    exact Db.statusOf_updateChunk_ne_st _ _ _ _ _ (by simp) this

theorem contextStep_error (pr : Providers) (opts : ProcOptions) (db : Db)
    (c : Chunk)
    (hc : (!opts.skipContext && !(c.status == ChunkStatus.contextualized)
            && !(c.status == ChunkStatus.complete)) = true)
    (hg : (contextStep pr opts db c).generated = false) :
    (contextStep pr opts db c).lastError.isSome := by
  unfold contextStep at hg ⊢
  rw [if_pos hc] at hg ⊢
  cases hcc : pr.context c.id
  · rw [hcc] at hg
    simp at hg
  · simp

theorem embeddingStep_keep_error (pr : Providers) (opts : ProcOptions)
    (s1 : StageState) (c : Chunk) (h : s1.lastError.isSome) :
    (embeddingStep pr opts s1 c).lastError.isSome := by
  unfold embeddingStep
  split
  · cases pr.embedding c.id <;> simp_all
  · simp_all

theorem embeddingStep_error (pr : Providers) (opts : ProcOptions)
    (s1 : StageState) (c : Chunk)
    (hg : (embeddingStep pr opts s1 c).generated = false)
    (he : (embeddingStep pr opts s1 c).db.hasEmbedding c.id = false)
    (hs : opts.skipEmbedding = false) :
    (embeddingStep pr opts s1 c).lastError.isSome := by
  unfold embeddingStep at *
  split at hg
  · cases hc : pr.embedding c.id <;> simp_all
  · next hcond =>
    simp only [hs, Bool.not_false, Bool.true_and, Bool.not_eq_true',
      Bool.not_eq_false] at hcond
    simp_all

/-- A result with `success = false` always carries a recorded error. -/
theorem processChunkLinear_error_of_failure (pr : Providers)
    (opts : ProcOptions) (db : Db) (c : Chunk)
    (h : (processChunkLinear pr opts db c).1.success = false) :
    (processChunkLinear pr opts db c).1.error.isSome := by
  have herr : (processChunkLinear pr opts db c).1.error
      = (embeddingStep pr opts (contextStep pr opts db c) c).lastError := rfl
  have hsucc : (processChunkLinear pr opts db c).1.success
      = ((!(!opts.skipContext && !(c.status == ChunkStatus.contextualized)
            && !(c.status == ChunkStatus.complete))
          || (contextStep pr opts db c).generated)
        && (!(!opts.skipEmbedding
              && !((embeddingStep pr opts (contextStep pr opts db c) c).db.hasEmbedding c.id))
          || (embeddingStep pr opts (contextStep pr opts db c) c).generated)) := rfl
  rw [herr]
  rw [hsucc] at h
  simp only [Bool.and_eq_false_iff, Bool.or_eq_false_iff, Bool.not_eq_false',
    Bool.and_eq_true, Bool.not_eq_true'] at h
  rcases h with ⟨hc, hg⟩ | ⟨he, hg⟩
  · exact embeddingStep_keep_error _ _ _ _
      (contextStep_error pr opts db c (by simp [hc.1.1, hc.1.2, hc.2]) hg)
  · exact embeddingStep_error pr opts _ c hg he.2 he.1

/-! ## Batch-level independence and frame lemmas -/

theorem processChunksAux_results (pr : Providers) (opts : ProcOptions) :
    ∀ (l : List Chunk) (db : Db) (a : Agg),
      (l.map Chunk.id).Nodup →
      (processChunksAux pr opts l db a).1.results
        = a.results ++ l.map (fun c => (processChunkLinear pr opts db c).1) := by
  intro l
  induction l with
  | nil => intro db a _; simp [processChunksAux]
  | cons c rest ih =>
    intro db a hn
    rw [List.map_cons, List.nodup_cons] at hn
    have hrest : ∀ c' ∈ rest, c'.id ≠ c.id := by
      intro c' hc' he
      exact hn.1 (he ▸ List.mem_map_of_mem Chunk.id hc')
    have hframe : ∀ c' ∈ rest,
        (processChunkLinear pr opts db c).2.hasEmbedding c'.id
          = db.hasEmbedding c'.id := fun c' hc' =>
      (processChunkLinear_frame pr opts db c c'.id (hrest c' hc')).2
    show (processChunksAux pr opts rest (processChunkLinear pr opts db c).2
      (stepAgg a (processChunkLinear pr opts db c).1)).1.results = _
    rw [ih _ _ hn.2]
    have hmap : rest.map (fun c' =>
          (processChunkLinear pr opts (processChunkLinear pr opts db c).2 c').1)
        = rest.map (fun c' => (processChunkLinear pr opts db c').1) :=
      List.map_congr_left (fun c' hc' =>
        processChunkLinear_congr pr opts _ db c' (hframe c' hc'))
    rw [hmap]
    simp [stepAgg]

theorem processChunksAux_frame (pr : Providers) (opts : ProcOptions) :
    ∀ (l : List Chunk) (db : Db) (a : Agg) (id : Nat),
      (∀ c ∈ l, c.id ≠ id) →
      (processChunksAux pr opts l db a).2.statusOf id = db.statusOf id ∧
      (processChunksAux pr opts l db a).2.hasEmbedding id = db.hasEmbedding id := by
  intro l
  induction l with
  | nil => intro db a id _; exact ⟨rfl, rfl⟩
  | cons c rest ih =>
    intro db a id h
    have hc := processChunkLinear_frame pr opts db c id
      (fun he => h c (List.mem_cons_self c rest) he.symm)
    have hr := ih (processChunkLinear pr opts db c).2
      (stepAgg a (processChunkLinear pr opts db c).1) id
      (fun c' hc' => h c' (List.mem_cons_of_mem c hc'))
    exact ⟨hr.1.trans hc.1, hr.2.trans hc.2⟩

theorem processChunksAux_no_failed (pr : Providers) (opts : ProcOptions) :
    ∀ (l : List Chunk) (db : Db) (a : Agg) (id : Nat),
      (processChunksAux pr opts l db a).2.statusOf id = some .failed →
      db.statusOf id = some .failed := by
  intro l
  induction l with
  | nil => intro db a id h; exact h
  | cons c rest ih =>
    intro db a id h
    exact processChunkLinear_no_failed_write pr opts db c id (ih _ _ _ h)

/-! ## Claim C3: partial-failure semantics -/

/-- Claim C3 (counterexample): a concrete batch with two pending chunks
where chunk 1's context and embedding stages both fail and chunk 2's
stages succeed.  After `processChunks`, chunk 1's outcome records
`success = false` with the last stage error — but its persisted status is
still `'pending'`, not `'failed'`: no code path ever writes the
`'failed'` status, contradicting the claim that the exhausted chunk "is
marked with status 'failed'".  Chunk 2 is driven to `'complete'`
unaffected. -/
theorem claim_C3_counterexample :
    ((processChunks
        ⟨fun id => if id = 1 then .fail "ctx boom" else .ok 5,
         fun id => if id = 1 then .fail "emb boom" else .ok 7⟩
        ⟨5, false, false⟩
        [⟨1, 0, 0, 1, 1, .pending⟩, ⟨2, 1, 1, 2, 1, .pending⟩]
        ⟨[(1, .pending), (2, .pending)], []⟩).1.results.map
      (fun r => (r.chunkId, r.success, r.error)))
      = [(1, false, some "emb boom"), (2, true, none)] ∧
    (processChunks
        ⟨fun id => if id = 1 then .fail "ctx boom" else .ok 5,
         fun id => if id = 1 then .fail "emb boom" else .ok 7⟩
        ⟨5, false, false⟩
        [⟨1, 0, 0, 1, 1, .pending⟩, ⟨2, 1, 1, 2, 1, .pending⟩]
        ⟨[(1, .pending), (2, .pending)], []⟩).2.statusOf 1
      = some ChunkStatus.pending ∧
    (processChunks
        ⟨fun id => if id = 1 then .fail "ctx boom" else .ok 5,
         fun id => if id = 1 then .fail "emb boom" else .ok 7⟩
        ⟨5, false, false⟩
        [⟨1, 0, 0, 1, 1, .pending⟩, ⟨2, 1, 1, 2, 1, .pending⟩]
        ⟨[(1, .pending), (2, .pending)], []⟩).2.statusOf 2
      = some ChunkStatus.complete ∧
    ChunkStatus.pending ≠ ChunkStatus.failed := by
  refine ⟨?_, ?_, ?_, by decide⟩ <;> rfl

/-- Claim C3 (amended): when a chunk exhausts its stage attempts during
`processChunks`, its batch-result entry — and only its entry — records
`success = false` together with its error message; its persisted status
is left as it was (it is *not* set to `'failed'`, and `'failed'` is never
written at all); and every other chunk in the batch is processed exactly
as if run alone against the initial database, so no sibling is blocked or
failed by it.  Formally, with pairwise-distinct pending chunk ids:
(1) the batch results are precisely each pending chunk's stand-alone
pipeline result on the initial database; (2) a result with
`success = false` always carries a recorded error; (3) chunk ids outside
the pending set have their status row and embedding row untouched; and
(4) no status row ever becomes `'failed'` that was not already. -/
theorem claim_C3 (pr : Providers) (opts : ProcOptions) (db : Db)
    (chunks : List Chunk)
    (hn : ((pendingFilter db opts chunks).map Chunk.id).Nodup) :
    (processChunks pr opts chunks db).1.results
      = (pendingFilter db opts chunks).map
          (fun c => (processChunkLinear pr opts db c).1) ∧
    (∀ r ∈ (processChunks pr opts chunks db).1.results,
      r.success = false → r.error.isSome) ∧
    (∀ id, (∀ c ∈ pendingFilter db opts chunks, c.id ≠ id) →
      (processChunks pr opts chunks db).2.statusOf id = db.statusOf id ∧
      (processChunks pr opts chunks db).2.hasEmbedding id = db.hasEmbedding id) ∧
    (∀ id, (processChunks pr opts chunks db).2.statusOf id = some .failed →
      db.statusOf id = some .failed) := by
  have h1 : (processChunks pr opts chunks db).1.results
      = (pendingFilter db opts chunks).map
          (fun c => (processChunkLinear pr opts db c).1) := by
    have := processChunksAux_results pr opts (pendingFilter db opts chunks) db
      ⟨[], 0, 0, 0, 0, 0⟩ hn
    simpa [processChunks] using this
  refine ⟨h1, ?_, ?_, ?_⟩
  · intro r hr hfail
    rw [h1] at hr
    obtain ⟨c, _, rfl⟩ := List.mem_map.1 hr
    exact processChunkLinear_error_of_failure pr opts db c hfail
  · intro id hid
    exact processChunksAux_frame pr opts (pendingFilter db opts chunks) db
      ⟨[], 0, 0, 0, 0, 0⟩ id hid
  · intro id h
    exact processChunksAux_no_failed pr opts (pendingFilter db opts chunks) db
      ⟨[], 0, 0, 0, 0, 0⟩ id h

/-- Claim C3 witness: the amended theorem applied to the concrete
two-chunk batch of the counterexample. -/
theorem claim_C3_witness :
    (((pendingFilter ⟨[(1, .pending), (2, .pending)], []⟩ ⟨5, false, false⟩
        [⟨1, 0, 0, 1, 1, .pending⟩, ⟨2, 1, 1, 2, 1, .pending⟩]).map
          Chunk.id).Nodup) ∧
    (processChunks
        ⟨fun id => if id = 1 then .fail "ctx boom" else .ok 5,
         fun id => if id = 1 then .fail "emb boom" else .ok 7⟩
        ⟨5, false, false⟩
        [⟨1, 0, 0, 1, 1, .pending⟩, ⟨2, 1, 1, 2, 1, .pending⟩]
        ⟨[(1, .pending), (2, .pending)], []⟩).1.results
      = (pendingFilter ⟨[(1, .pending), (2, .pending)], []⟩ ⟨5, false, false⟩
          [⟨1, 0, 0, 1, 1, .pending⟩, ⟨2, 1, 1, 2, 1, .pending⟩]).map
          (fun c => (processChunkLinear
            ⟨fun id => if id = 1 then .fail "ctx boom" else .ok 5,
             fun id => if id = 1 then .fail "emb boom" else .ok 7⟩
            ⟨5, false, false⟩ ⟨[(1, .pending), (2, .pending)], []⟩ c).1) :=
  ⟨by decide,
    (claim_C3
      ⟨fun id => if id = 1 then .fail "ctx boom" else .ok 5,
       fun id => if id = 1 then .fail "emb boom" else .ok 7⟩
      ⟨5, false, false⟩
      ⟨[(1, .pending), (2, .pending)], []⟩
      [⟨1, 0, 0, 1, 1, .pending⟩, ⟨2, 1, 1, 2, 1, .pending⟩]
      (by decide)).1⟩

/-! ## Claim C5: resume idempotence for complete chunks -/

/-- Database well-formedness: a chunk whose status row says `'complete'`
has a stored embedding row.  Every write path that sets `'complete'` does
so immediately after inserting the embedding, so the pipeline preserves
this (see `processChunks_wf`). -/
def DbWf (db : Db) : Prop :=
  ∀ id, db.statusOf id = some .complete → db.hasEmbedding id = true

theorem lookupStatus_updateRows_self (i : Nat) (st : ChunkStatus) :
    ∀ l : List (Nat × ChunkStatus),
      lookupStatus (updateRows l i st) i = (lookupStatus l i).map (fun _ => st)
  | [] => rfl
  | (k, w) :: t => by
    have ih := lookupStatus_updateRows_self i st t
    by_cases hk : k = i
    · subst hk
      simp [updateRows, lookupStatus]
    · simp [updateRows, lookupStatus, hk, Ne.symm hk, ih]

theorem Db.hasEmbedding_mono (db : Db) (i j : Nat)
    (h : db.hasEmbedding j = true) :
    (db.insertEmbedding i).hasEmbedding j = true := by
  simp [Db.insertEmbedding, Db.hasEmbedding, memberNat] at h ⊢
  exact Or.inr h

theorem DbWf.updateChunk_ne_complete {db : Db} (hwf : DbWf db) (i : Nat)
    (st : ChunkStatus) (hst : st ≠ .complete) :
    DbWf (db.updateChunk i st) := by
  intro id h
  rw [Db.hasEmbedding_updateChunk]
  by_cases hi : id = i
  · subst hi
    have : (db.updateChunk id st).statusOf id
        = (db.statusOf id).map (fun _ => st) :=
      lookupStatus_updateRows_self id st db.statuses
    rw [this] at h
    cases hdb : db.statusOf id <;> rw [hdb] at h <;> simp at h
    exact absurd h hst
  · rw [Db.statusOf_updateChunk_ne db i id st hi] at h
    exact hwf id h

theorem DbWf.updateChunk_has_emb {db : Db} (hwf : DbWf db) (i : Nat)
    (st : ChunkStatus) (hemb : db.hasEmbedding i = true) :
    DbWf (db.updateChunk i st) := by
  intro id h
  rw [Db.hasEmbedding_updateChunk]
  by_cases hi : id = i
  · subst hi; exact hemb
  · rw [Db.statusOf_updateChunk_ne db i id st hi] at h
    exact hwf id h

theorem DbWf.insertEmbedding {db : Db} (hwf : DbWf db) (i : Nat) :
    DbWf (db.insertEmbedding i) := by
  intro id h
  rw [Db.statusOf_insertEmbedding] at h
  by_cases hi : id = i
  · subst hi; exact Db.hasEmbedding_insertEmbedding_self db id
  · exact Db.hasEmbedding_mono db i id (hwf id h)

theorem processChunkLinear_wf (pr : Providers) (opts : ProcOptions) (db : Db)
    (c : Chunk) (hwf : DbWf db) : DbWf (processChunkLinear pr opts db c).2 := by
  have hwf1 : DbWf (contextStep pr opts db c).db := by
    rcases contextStep_db pr opts db c with h | h <;> rw [h]
    · exact hwf
    · exact hwf.updateChunk_ne_complete c.id _ (by simp)
  have hdb2 : (processChunkLinear pr opts db c).2
      = (embeddingStep pr opts (contextStep pr opts db c) c).db := rfl
  rw [hdb2]
  rcases embeddingStep_db pr opts (contextStep pr opts db c) c with h | ⟨st, _, h⟩ <;>
    rw [h]
  · exact hwf1
  · exact (hwf1.insertEmbedding c.id).updateChunk_has_emb c.id st
      (Db.hasEmbedding_insertEmbedding_self _ c.id)

theorem processChunksAux_wf (pr : Providers) (opts : ProcOptions) :
    ∀ (l : List Chunk) (db : Db) (a : Agg), DbWf db →
      DbWf (processChunksAux pr opts l db a).2 := by
  intro l
  induction l with
  | nil => intro db a h; exact h
  | cons c rest ih =>
    intro db a h
    exact ih _ _ (processChunkLinear_wf pr opts db c h)

/-- The pipeline preserves database well-formedness: it only ever writes
`'complete'` immediately after inserting the chunk's embedding row. -/
theorem processChunks_wf (pr : Providers) (opts : ProcOptions)
    (chunks : List Chunk) (db : Db) (hwf : DbWf db) :
    DbWf (processChunks pr opts chunks db).2 :=
  processChunksAux_wf pr opts (pendingFilter db opts chunks) db _ hwf

theorem processChunksAux_result_ids (pr : Providers) (opts : ProcOptions) :
    ∀ (l : List Chunk) (db : Db) (a : Agg) (r : ChunkProcessingResult),
      r ∈ (processChunksAux pr opts l db a).1.results →
      r ∈ a.results ∨ ∃ c ∈ l, r.chunkId = c.id := by
  intro l
  induction l with
  | nil => intro db a r h; exact Or.inl h
  | cons c rest ih =>
    intro db a r h
    rcases ih _ _ r h with hmem | ⟨c', hc', hid⟩
    · simp only [stepAgg, List.mem_append, List.mem_singleton] at hmem
      rcases hmem with hmem | rfl
      · exact Or.inl hmem
      · exact Or.inr ⟨c, List.mem_cons_self c rest,
          processChunkLinear_chunkId pr opts db c⟩
    · exact Or.inr ⟨c', List.mem_cons_of_mem c hc', hid⟩

theorem pendingFilter_subset (db : Db) (opts : ProcOptions)
    (chunks : List Chunk) (c : Chunk) (h : c ∈ pendingFilter db opts chunks) :
    c ∈ chunks :=
  List.mem_of_mem_filter h

/-- Claim C5: a second `processChunks` call with identical skip flags
never reprocesses a chunk that is `'complete'`.  Formally: start from any
well-formed database `db0`, run a first call (any providers, flags
`opts`), and let `db1` be the resulting database.  For a chunk `c` of the
second call's chunk list whose status snapshot and `db1` row both say
`'complete'` (and whose id identifies it uniquely in that list), the
second call filters `c` out of its pending set — so no stage work is
performed for it — and leaves `c`'s persisted status (`'complete'`) and
its embedding row untouched; no result entry is produced for `c`. -/
theorem claim_C5 (pr pr' : Providers) (opts : ProcOptions) (db0 : Db)
    (chunks chunks' : List Chunk) (c : Chunk)
    (hwf0 : DbWf db0)
    (hstat : c.status = .complete)
    (hdb : (processChunks pr opts chunks db0).2.statusOf c.id = some .complete)
    (hinj : ∀ c' ∈ chunks', c'.id = c.id → c' = c) :
    c ∉ pendingFilter (processChunks pr opts chunks db0).2 opts chunks' ∧
    (processChunks pr' opts chunks'
        (processChunks pr opts chunks db0).2).2.statusOf c.id
      = some .complete ∧
    (processChunks pr' opts chunks'
        (processChunks pr opts chunks db0).2).2.hasEmbedding c.id
      = (processChunks pr opts chunks db0).2.hasEmbedding c.id ∧
    ∀ r ∈ (processChunks pr' opts chunks'
        (processChunks pr opts chunks db0).2).1.results,
      r.chunkId ≠ c.id := by
  set db1 := (processChunks pr opts chunks db0).2 with hdb1
  have hwf1 : DbWf db1 := processChunks_wf pr opts chunks db0 hwf0
  have hemb : db1.hasEmbedding c.id = true := hwf1 c.id hdb
  have hnotpending : c ∉ pendingFilter db1 opts chunks' := by
    intro hc
    have hthis := List.of_mem_filter hc
    by_cases h1 : opts.skipContext <;> by_cases h2 : opts.skipEmbedding <;>
      simp [h1, h2, hstat, hemb] at hthis <;> revert hthis <;> decide
  have hne : ∀ c' ∈ pendingFilter db1 opts chunks', c'.id ≠ c.id := by
    intro c' hc' he
    exact hnotpending ((hinj c' (pendingFilter_subset _ _ _ _ hc') he) ▸ hc')
  have hframe := processChunksAux_frame pr' opts (pendingFilter db1 opts chunks')
    db1 ⟨[], 0, 0, 0, 0, 0⟩ c.id hne
  refine ⟨hnotpending, ?_, ?_, ?_⟩
  · exact hframe.1.trans hdb
  · exact hframe.2
  · intro r hr
    rcases processChunksAux_result_ids pr' opts (pendingFilter db1 opts chunks')
      db1 ⟨[], 0, 0, 0, 0, 0⟩ r hr with hmem' | ⟨c', hc', hid⟩
    · simp at hmem'
    · rw [hid]
      exact hne c' hc'

/-- Claim C5 witness: concrete two-call scenario — an empty first call on
a well-formed database holding one complete chunk with its embedding; the
second call is given that complete chunk and skips it. -/
theorem claim_C5_witness :
    (⟨1, 0, 0, 1, 1, .complete⟩ : Chunk).status = .complete ∧
    (processChunks ⟨fun _ => .ok 1, fun _ => .ok 1⟩ ⟨5, false, false⟩ []
        ⟨[(1, .complete)], [1]⟩).2.statusOf 1 = some .complete ∧
    (⟨1, 0, 0, 1, 1, .complete⟩ : Chunk) ∉
      pendingFilter
        (processChunks ⟨fun _ => .ok 1, fun _ => .ok 1⟩ ⟨5, false, false⟩ []
          ⟨[(1, .complete)], [1]⟩).2
        ⟨5, false, false⟩ [⟨1, 0, 0, 1, 1, .complete⟩] := by
  refine ⟨by decide, by decide, ?_⟩
  refine (claim_C5 ⟨fun _ => .ok 1, fun _ => .ok 1⟩ ⟨fun _ => .ok 1, fun _ => .ok 1⟩
    ⟨5, false, false⟩ ⟨[(1, .complete)], [1]⟩ [] [⟨1, 0, 0, 1, 1, .complete⟩]
    ⟨1, 0, 0, 1, 1, .complete⟩ ?_ (by decide) (by decide) ?_).1
  · intro id h
    by_cases h1 : id = 1
    · subst h1; decide
    · simp [Db.statusOf, lookupStatus, h1] at h
  · intro c' hc' he
    simp at hc'
    exact hc'

/-! ## Claim C4: semaphore-bounded parallelism

The `Semaphore` class holds a permit counter and a FIFO queue of waiting
continuations; `acquire` grants a permit when `permits > 0` and otherwise
enqueues, `release` increments the counter and synchronously wakes the
queue head (which re-decrements it).  In `processChunks` every pending
chunk maps to one task `semaphore.acquire().then(async (release) => {
try { ...pipeline... } finally { release(); } })`, so a task's permit is
released exactly when its pipeline finishes — normally or by a thrown
error.  We model one `processChunks` invocation as a labelled transition
system: each task is not-started, waiting, running (between acquire and
release) or done, and the atomic steps are the synchronous JS blocks. -/

/-- Phase of one chunk-pipeline task. -/
inductive TaskPhase where
  | notStarted
  | waiting
  | running
  | done
deriving Repr, DecidableEq

/-- State of the semaphore plus the tasks of one `processChunks` call. -/
structure SemState where
  permits : Nat
  queue : List Nat
  tasks : List TaskPhase
deriving Repr, DecidableEq

/-- Number of pipelines currently between acquire and release. -/
def runningCount (s : SemState) : Nat :=
  (s.tasks.filter (fun p => p == .running)).length

/-- Initial state: `new Semaphore(options.maxParallelChunks)` with `k`
not-yet-started tasks. -/
def SemState.init (n k : Nat) : SemState :=
  ⟨n, [], List.replicate k .notStarted⟩

/-- The atomic transitions of the semaphore/task system.

* `startAcquire`: a not-started task calls `acquire` while `permits > 0`:
  the permit count is decremented and the task's pipeline starts running.
* `startWait`: a not-started task calls `acquire` with no free permit:
  its continuation is pushed on the FIFO `waiting` queue.
* `finishNoWake`: a running task's pipeline finishes (success, recorded
  failure, or thrown error — the `finally` always runs `release()`):
  `permits++`, and the queue is empty so nobody is woken.
* `finishWake`: as above but the queue is non-empty: `release()` does
  `permits++`, shifts the queue head and synchronously runs it, which
  does `permits--` and resolves that task's `acquire` — its pipeline is
  now between acquire and release ( running). -/
inductive SemStep : SemState → SemState → Prop where
  | startAcquire (s : SemState) (t : Nat) (ht : t < s.tasks.length)
      (hphase : s.tasks.get ⟨t, ht⟩ = .notStarted)
      (hp : 0 < s.permits) :
      SemStep s ⟨s.permits - 1, s.queue, s.tasks.set t .running⟩
  | startWait (s : SemState) (t : Nat) (ht : t < s.tasks.length)
      (hphase : s.tasks.get ⟨t, ht⟩ = .notStarted)
      (hp : s.permits = 0) :
      SemStep s ⟨s.permits, s.queue ++ [t], s.tasks.set t .waiting⟩
  | finishNoWake (s : SemState) (t : Nat) (ht : t < s.tasks.length)
      (hphase : s.tasks.get ⟨t, ht⟩ = .running)
      (hq : s.queue = []) :
      SemStep s ⟨s.permits + 1, [], s.tasks.set t .done⟩
  | finishWake (s : SemState) (t : Nat) (ht : t < s.tasks.length)
      (hphase : s.tasks.get ⟨t, ht⟩ = .running)
      (u : Nat) (rest : List Nat) (hq : s.queue = u :: rest) :
      SemStep s ⟨s.permits + 1 - 1, rest, (s.tasks.set t .done).set u .running⟩

/-- States reachable by a `processChunks` run with `maxParallelChunks = n`
and `k` pending chunks. -/
def SemReachable (n k : Nat) (s : SemState) : Prop :=
  Relation.ReflTransGen SemStep (SemState.init n k) s

/-- The inductive invariant: the permit count plus the number of running
pipelines is the configured bound, queued tasks are waiting tasks, and
the queue has no duplicates. -/
def SemInv (n k : Nat) (s : SemState) : Prop :=
  s.tasks.length = k ∧
  s.permits + runningCount s = n ∧
  (∀ u ∈ s.queue, ∃ hu : u < s.tasks.length, s.tasks.get ⟨u, hu⟩ = .waiting) ∧
  s.queue.Nodup

theorem filter_length_set (p : TaskPhase → Bool) (x : TaskPhase) :
    ∀ (l : List TaskPhase) (t : Nat) (ht : t < l.length),
      ((l.set t x).filter p).length + (if p (l.get ⟨t, ht⟩) then 1 else 0)
        = (l.filter p).length + (if p x then 1 else 0)
  | [], t, ht => by simp at ht
  | a :: l, 0, ht => by
    by_cases hx : p x <;> by_cases ha : p a <;> simp [hx, ha, List.filter]
  | a :: l, t + 1, ht => by
    have ih := filter_length_set p x l t (by simpa using ht)
    simp only [List.get_eq_getElem] at ih ⊢
    simp only [List.set_cons_succ, List.getElem_cons_succ]
    by_cases ha : p a <;> simp [List.filter_cons, ha] <;> omega

theorem semStep_inv (n k : Nat) {s s' : SemState} (hstep : SemStep s s')
    (hinv : SemInv n k s) : SemInv n k s' := by
  obtain ⟨hlen, hcount, hqueue, hnodup⟩ := hinv
  cases hstep with
  | startAcquire t ht hphase hp =>
    refine ⟨by simpa using hlen, ?_, ?_, by simpa using hnodup⟩
    · have hc := filter_length_set (fun p => p == .running) .running s.tasks t ht
      rw [hphase] at hc
      simp only [runningCount] at hcount ⊢
      simp at hc
      omega
    · intro u hu
      obtain ⟨hub, huw⟩ := hqueue u hu
      have hune : u ≠ t := by
        intro he
        subst he
        exact absurd (huw.symm.trans hphase) (by decide)
      exact ⟨by simpa using hub, by
        rw [List.get_set_ne (Ne.symm hune)]
        exact huw⟩
  | startWait t ht hphase hp =>
    refine ⟨by simpa using hlen, ?_, ?_, ?_⟩
    · have hc := filter_length_set (fun p => p == .running) .waiting s.tasks t ht
      rw [hphase] at hc
      simp only [runningCount] at hcount ⊢
      simp at hc
      omega
    · intro u hu
      rcases List.mem_append.1 hu with hu | hu
      · obtain ⟨hub, huw⟩ := hqueue u hu
        have hune : u ≠ t := by
          intro he
          subst he
          exact absurd (huw.symm.trans hphase) (by decide)
        exact ⟨by simpa using hub, by
          rw [List.get_set_ne (Ne.symm hune)]
          exact huw⟩
      · rw [List.mem_singleton] at hu
        subst hu
        refine ⟨by simpa using ht, ?_⟩
        simp [List.get_eq_getElem, List.getElem_set_self]
    · rw [List.nodup_append]
      refine ⟨hnodup, List.nodup_singleton t, ?_⟩
      intro u hu hut
      rw [List.mem_singleton] at hut
      subst hut
      obtain ⟨hub, huw⟩ := hqueue u hu
      rw [hphase] at huw
      exact absurd huw (by decide)
  | finishNoWake t ht hphase hq =>
    refine ⟨by simpa using hlen, ?_, by simp, by simp⟩
    have hc := filter_length_set (fun p => p == .running) .done s.tasks t ht
    rw [hphase] at hc
    simp only [runningCount] at hcount ⊢
    simp at hc
    omega
  | finishWake t ht hphase u rest hq =>
    have hu := hqueue u (by rw [hq]; exact List.mem_cons_self u rest)
    obtain ⟨hub, huw⟩ := hu
    have hut : u ≠ t := by
      intro he
      subst he
      exact absurd (huw.symm.trans hphase) (by decide)
    have hub2 : u < (s.tasks.set t .done).length := by simpa using hub
    refine ⟨by simpa using hlen, ?_, ?_, ?_⟩
    · have hc1 := filter_length_set (fun p => p == .running) .done s.tasks t ht
      rw [hphase] at hc1
      have hc2 := filter_length_set (fun p => p == .running) .running
        (s.tasks.set t .done) u hub2
      have hgu : (s.tasks.set t .done).get ⟨u, hub2⟩ = .waiting := by
        rw [List.get_set_ne (Ne.symm hut)]
        exact huw
      rw [hgu] at hc2
      simp only [runningCount] at hcount ⊢
      simp at hc1 hc2
      omega
    · intro w hw
      have hwq : w ∈ s.queue := by rw [hq]; exact List.mem_cons_of_mem u hw
      obtain ⟨hwb, hww⟩ := hqueue w hwq
      have hwt : w ≠ t := by
        intro he
        subst he
        exact absurd (hww.symm.trans hphase) (by decide)
      have hwu : w ≠ u := by
        intro he
        subst he
        rw [hq] at hnodup
        exact (List.nodup_cons.1 hnodup).1 hw
      refine ⟨by simpa using hwb, ?_⟩
      rw [List.get_set_ne (Ne.symm hwu), List.get_set_ne (Ne.symm hwt)]
      exact hww
    · rw [hq] at hnodup
      exact (List.nodup_cons.1 hnodup).2

theorem semReachable_inv (n k : Nat) (s : SemState) (h : SemReachable n k s) :
    SemInv n k s := by
  induction h with
  | refl =>
    refine ⟨by simp [SemState.init], ?_, ?_, by simp [SemState.init]⟩
    · have hnil : (List.replicate k TaskPhase.notStarted).filter
          (fun p => p == .running) = [] := by
        rw [List.filter_eq_nil_iff]
        intro p hp
        rw [List.eq_of_mem_replicate hp]
        decide
      simp [SemState.init, runningCount, hnil]
    · intro u hu
      simp [SemState.init] at hu
  | tail _ hstep ih => exact semStep_inv n k hstep ih

/-- Claim C4: in every reachable state of a `processChunks` run with
`maxParallelChunks = n`, at most `n` chunk pipelines are simultaneously
between semaphore acquire and release; and because the `finally` releases
the permit whenever a pipeline finishes — success, recorded failure, or
thrown error — once every task is done all `n` permits are back, so no
permit is ever leaked. -/
theorem claim_C4 (n k : Nat) (s : SemState) (h : SemReachable n k s) :
    runningCount s ≤ n ∧
    ((∀ p ∈ s.tasks, p = .done) → s.permits = n) := by
  obtain ⟨hlen, hcount, _, _⟩ := semReachable_inv n k s h
  constructor
  · omega
  · intro hdone
    have hz : runningCount s = 0 := by
      simp only [runningCount, List.length_eq_zero]
      rw [List.filter_eq_nil_iff]
      intro p hp
      rw [hdone p hp]
      decide
    omega

/-- Claim C4 witness: the two-step run of one task under bound 1 —
acquire, run, release — ending with the permit restored. -/
theorem claim_C4_witness :
    runningCount ⟨1, [], [TaskPhase.done]⟩ ≤ 1 ∧
    ((∀ p ∈ (SemState.mk 1 [] [TaskPhase.done]).tasks, p = .done) →
      (SemState.mk 1 [] [TaskPhase.done]).permits = 1) :=
  claim_C4 1 1 ⟨1, [], [TaskPhase.done]⟩
    (Relation.ReflTransGen.tail
      (Relation.ReflTransGen.tail Relation.ReflTransGen.refl
        (SemStep.startAcquire (SemState.init 1 1) 0 (by decide) (by decide)
          (by decide)))
      (SemStep.finishNoWake ⟨0, [], [TaskPhase.running]⟩ 0 (by decide) (by decide)
        rfl))

/-! ## Claim C6: retry policies

Three retry loops exist in the code base:
`EmbeddingService.retryOperation`, the service-level loop in
`ContextService.generateContextWithRetry`, and the provider-level
`BaseAIProvider.withRetry`.  Each is modelled as a function of an
attempt-indexed operation outcome, returning the final result together
with the number of operation invocations and the list of sleep delays
(in ms) performed between attempts. -/

def toLowerList (l : List Char) : List Char := l.map Char.toLower

/-- `String.prototype.includes`. -/
def containsSub (needle : List Char) : List Char → Bool
  | [] => needle.isEmpty
  | c :: rest => needle.isPrefixOf (c :: rest) || containsSub needle rest

/-- `lastError.message.includes('rate limit')` — case-sensitive, exactly
as written in `retryOperation` and `generateContextWithRetry`. -/
def isRateLimitMsg (msg : List Char) : Bool :=
  containsSub "rate limit".toList msg

/-- `BaseAIProvider.isAuthError`: lowercase the message and look for
'unauthorized', 'api key' or 'authentication'. -/
def isAuthError (msg : List Char) : Bool :=
  containsSub "unauthorized".toList (toLowerList msg) ||
  containsSub "api key".toList (toLowerList msg) ||
  containsSub "authentication".toList (toLowerList msg)

/-- Result of a retry loop: final outcome, number of operation
invocations, delays slept between attempts. -/
structure RetryTrace (α : Type) where
  result : Except (List Char) α
  attempts : Nat
  delays : List Nat
deriving Repr

/-- The `for (attempt = 1; attempt <= maxRetries; attempt++)` loop of
`EmbeddingService.retryOperation`, with `remaining` iterations left
(`remaining = maxRetries - attempt + 1` at every call; the `0` case is
the loop exit, which throws `lastError || Error('Operation failed after
retries')`).  A rate-limit error with attempts left sleeps
`2^attempt * 1000` ms; any other error with attempts left — including
authentication errors, which this loop does not single out — sleeps a
fixed `1000` ms. -/
def retryOperationAux {α : Type} (op : Nat → Except (List Char) α)
    (maxRetries : Nat) :
    Nat → Nat → Option (List Char) → RetryTrace α
  | 0, _, lastError =>
    ⟨.error (lastError.getD "Operation failed after retries".toList), 0, []⟩
  | remaining + 1, attempt, lastError =>
    match op attempt with
    | .ok v => ⟨.ok v, 1, []⟩
    | .error e =>
      if isRateLimitMsg e ∧ attempt < maxRetries then
        let t := retryOperationAux op maxRetries remaining (attempt + 1) (some e)
        ⟨t.result, t.attempts + 1, (2 ^ attempt * 1000) :: t.delays⟩
      else if attempt < maxRetries then
        let t := retryOperationAux op maxRetries remaining (attempt + 1) (some e)
        ⟨t.result, t.attempts + 1, 1000 :: t.delays⟩
      else ⟨.error e, 1, []⟩

/-- `EmbeddingService.retryOperation` (default `maxRetries` is 3 from
`EmbeddingOptions`). -/
def retryOperation {α : Type} (op : Nat → Except (List Char) α)
    (maxRetries : Nat) : RetryTrace α :=
  retryOperationAux op maxRetries maxRetries 1 none

/-- One attempt of `generateContext` as observed by
`generateContextWithRetry`: either it returned a result record
(`success` flag plus optional error string — `generateContext` catches
its own exceptions) or an exception escaped. -/
inductive CtxAttempt where
  | ret (success : Bool) (err : Option (List Char))
  | thrown (msg : List Char)

/-- Trace of `generateContextWithRetry`. -/
structure CtxTrace where
  success : Bool
  error : Option (List Char)
  attempts : Nat
  delays : List Nat
deriving Repr, DecidableEq

/-- The retry loop of `ContextService.generateContextWithRetry` (default
`maxRetries = 3`).  The exponential rate-limit backoff
(`2^attempt * 1000`) sits in the `catch` block only, so it applies only
to *thrown* rate-limit errors; a returned `success:false` result — the
normal path, since `generateContext` never throws — always takes the
fixed 1000 ms delay, and no error kind is exempt from retrying. -/
def generateContextWithRetryAux (op : Nat → CtxAttempt) (maxRetries : Nat) :
    Nat → Nat → Option (List Char) → CtxTrace
  | 0, _, lastError =>
    ⟨false, some (lastError.getD "Unknown error after retries".toList), 0, []⟩
  | remaining + 1, attempt, lastError =>
    match op attempt with
    | .ret true _ => ⟨true, none, 1, []⟩
    | .ret false err =>
      if attempt < maxRetries then
        let t := generateContextWithRetryAux op maxRetries remaining (attempt + 1)
          (some (err.getD "Context generation failed".toList))
        ⟨t.success, t.error, t.attempts + 1, 1000 :: t.delays⟩
      else ⟨false, some (err.getD "Context generation failed".toList), 1, []⟩
    | .thrown msg =>
      if isRateLimitMsg msg ∧ attempt < maxRetries then
        let t := generateContextWithRetryAux op maxRetries remaining (attempt + 1)
          (some msg)
        ⟨t.success, t.error, t.attempts + 1, (2 ^ attempt * 1000) :: t.delays⟩
      else if attempt < maxRetries then
        let t := generateContextWithRetryAux op maxRetries remaining (attempt + 1)
          (some msg)
        ⟨t.success, t.error, t.attempts + 1, 1000 :: t.delays⟩
      else ⟨false, some msg, 1, []⟩

def generateContextWithRetry (op : Nat → CtxAttempt) (maxRetries : Nat) :
    CtxTrace :=
  generateContextWithRetryAux op maxRetries maxRetries 1 none

/-- The failure shapes of `BaseAIProvider.withRetry`: an immediate
`ApiError('Authentication failed: ...')` or exhaustion after
`maxRetries` attempts. -/
inductive ApiFailure where
  | authFailed (msg : List Char)
  | exhausted (msg : List Char)
deriving Repr, DecidableEq

structure WithRetryTrace (α : Type) where
  result : Except ApiFailure α
  attempts : Nat
  delays : List Nat
deriving Repr

/-- The loop of `BaseAIProvider.withRetry` (defaults `maxRetries = 3`,
`delay = 1000`).  An error classified by `isAuthError` is thrown at once
— never retried; on the last attempt the loop breaks and throws; any
other retried error sleeps `delay * 2^(attempt-1)` — exponential backoff
for *every* retried error, not only rate limits.  (The 0-iterations case
would dereference an unset `lastError!` in JS; it is unreachable for the
used `maxRetries ≥ 1`.) -/
def withRetryAux {α : Type} (op : Nat → Except (List Char) α)
    (maxRetries delay : Nat) :
    Nat → Nat → WithRetryTrace α
  | 0, _ => ⟨.error (.exhausted []), 0, []⟩
  | remaining + 1, attempt =>
    match op attempt with
    | .ok v => ⟨.ok v, 1, []⟩
    | .error e =>
      if isAuthError e then ⟨.error (.authFailed e), 1, []⟩
      else if attempt = maxRetries then ⟨.error (.exhausted e), 1, []⟩
      else
        let t := withRetryAux op maxRetries delay remaining (attempt + 1)
        ⟨t.result, t.attempts + 1, (delay * 2 ^ (attempt - 1)) :: t.delays⟩

def withRetry {α : Type} (op : Nat → Except (List Char) α)
    (maxRetries delay : Nat) : WithRetryTrace α :=
  withRetryAux op maxRetries delay maxRetries 1

theorem retryOperationAux_attempts {α : Type} (op : Nat → Except (List Char) α)
    (maxRetries : Nat) :
    ∀ (remaining attempt : Nat) (le : Option (List Char)),
      (retryOperationAux op maxRetries remaining attempt le).attempts ≤ remaining
  | 0, _, _ => by simp [retryOperationAux]
  | remaining + 1, attempt, le => by
    have ih := fun le' =>
      retryOperationAux_attempts op maxRetries remaining (attempt + 1) le'
    cases hop : op attempt with
    | ok v => simp [retryOperationAux, hop]
    | error e =>
      simp only [retryOperationAux, hop]
      split
      · have := ih (some e); simp only []; omega
      · split
        · have := ih (some e); simp only []; omega
        · simp

/-- Delay characterization for `retryOperation`: every recorded delay
follows a failed attempt; an error containing 'rate limit' waits
`2^attempt * 1000` ms, every other error — authentication included —
waits a fixed `1000` ms. -/
theorem retryOperationAux_delays {α : Type} (op : Nat → Except (List Char) α)
    (maxRetries : Nat) :
    ∀ (remaining attempt : Nat) (le : Option (List Char)) (ad : Nat × Nat),
      ad ∈ ((retryOperationAux op maxRetries remaining attempt le).delays.enumFrom attempt) →
      ∃ e, op ad.1 = .error e ∧
        ad.2 = (if isRateLimitMsg e then 2 ^ ad.1 * 1000 else 1000)
  | 0, attempt, le, ad, had => by simp [retryOperationAux] at had
  | remaining + 1, attempt, le, ad, had => by
    have ih := retryOperationAux_delays op maxRetries remaining (attempt + 1)
    cases hop : op attempt with
    | ok v => simp [retryOperationAux, hop] at had
    | error e =>
      simp only [retryOperationAux, hop] at had
      split at had
      · next hcond =>
        simp only [List.enumFrom] at had
        rcases List.mem_cons.1 had with rfl | had
        · exact ⟨e, by simpa using hop, by simp [hcond.1]⟩
        · exact ih (some e) ad had
      · split at had
        · next hnot hlt =>
          simp only [List.enumFrom] at had
          rcases List.mem_cons.1 had with rfl | had
          · refine ⟨e, by simpa using hop, ?_⟩
            have hrl : isRateLimitMsg e = false := by
              by_contra hc
              simp at hc
              exact hnot ⟨hc, hlt⟩
            simp [hrl]
          · exact ih (some e) ad had
        · simp at had

theorem generateContextWithRetryAux_attempts (op : Nat → CtxAttempt)
    (maxRetries : Nat) :
    ∀ (remaining attempt : Nat) (le : Option (List Char)),
      (generateContextWithRetryAux op maxRetries remaining attempt le).attempts
        ≤ remaining
  | 0, _, _ => by simp [generateContextWithRetryAux]
  | remaining + 1, attempt, le => by
    have ih := fun le' =>
      generateContextWithRetryAux_attempts op maxRetries remaining (attempt + 1) le'
    cases hop : op attempt with
    | ret success err =>
      cases success
      · simp only [generateContextWithRetryAux, hop]
        split
        · have := ih (some (err.getD "Context generation failed".toList))
          simp only []; omega
        · simp
      · simp [generateContextWithRetryAux, hop]
    | thrown msg =>
      simp only [generateContextWithRetryAux, hop]
      split
      · have := ih (some msg); simp only []; omega
      · split
        · have := ih (some msg); simp only []; omega
        · simp

/-- Delay characterization for `generateContextWithRetry`: every
recorded delay follows a failed attempt.  If the attempt *threw*, the
delay is `2^attempt * 1000` ms exactly when the error text contains
'rate limit' and the fixed `1000` ms otherwise (authentication errors
included — they are retried like any other).  If the attempt *returned*
`success:false` — the normal failure path, since `generateContext`
catches its own exceptions — the delay is always the fixed `1000` ms,
whatever the error text. -/
theorem generateContextWithRetryAux_delays (op : Nat → CtxAttempt)
    (maxRetries : Nat) :
    ∀ (remaining attempt : Nat) (le : Option (List Char)) (ad : Nat × Nat),
      ad ∈ ((generateContextWithRetryAux op maxRetries remaining attempt le).delays.enumFrom attempt) →
      (∃ msg, op ad.1 = .thrown msg ∧
        ad.2 = (if isRateLimitMsg msg then 2 ^ ad.1 * 1000 else 1000)) ∨
      (∃ err, op ad.1 = .ret false err ∧ ad.2 = 1000)
  | 0, attempt, le, ad, had => by simp [generateContextWithRetryAux] at had
  | remaining + 1, attempt, le, ad, had => by
    have ih := generateContextWithRetryAux_delays op maxRetries remaining (attempt + 1)
    cases hop : op attempt with
    | ret success err =>
      cases success
      · simp only [generateContextWithRetryAux, hop] at had
        split at had
        · simp only [List.enumFrom] at had
          rcases List.mem_cons.1 had with rfl | had
          · exact Or.inr ⟨err, by simpa using hop, rfl⟩
          · exact ih _ ad had
        · simp at had
      · simp [generateContextWithRetryAux, hop] at had
    | thrown msg =>
      simp only [generateContextWithRetryAux, hop] at had
      split at had
      · next hcond =>
        simp only [List.enumFrom] at had
        rcases List.mem_cons.1 had with rfl | had
        · exact Or.inl ⟨msg, by simpa using hop, by simp [hcond.1]⟩
        · exact ih _ ad had
      · next hncond =>
        split at had
        · next hlt =>
          simp only [List.enumFrom] at had
          rcases List.mem_cons.1 had with rfl | had
          · refine Or.inl ⟨msg, by simpa using hop, ?_⟩
            have hrl : isRateLimitMsg msg = false := by
              by_contra hc
              simp at hc
              exact hncond ⟨hc, hlt⟩
            simp [hrl]
          · exact ih _ ad had
        · simp at had

theorem withRetryAux_attempts {α : Type} (op : Nat → Except (List Char) α)
    (maxRetries delay : Nat) :
    ∀ (remaining attempt : Nat),
      (withRetryAux op maxRetries delay remaining attempt).attempts ≤ remaining
  | 0, _ => by simp [withRetryAux]
  | remaining + 1, attempt => by
    have ih := withRetryAux_attempts op maxRetries delay remaining (attempt + 1)
    cases hop : op attempt with
    | ok v => simp [withRetryAux, hop]
    | error e =>
      simp only [withRetryAux, hop]
      split
      · simp
      · split
        · simp
        · simp only []; omega

/-- Delay characterization for `withRetry`: every recorded delay follows
an error that is *not* an authentication error (an authentication error
is thrown at once, so no delay — and no further attempt — ever follows
it), and the delay is `delay * 2^(attempt-1)` — exponential for every
retried error. -/
theorem withRetryAux_delays {α : Type} (op : Nat → Except (List Char) α)
    (maxRetries delay : Nat) :
    ∀ (remaining attempt : Nat) (ad : Nat × Nat),
      ad ∈ ((withRetryAux op maxRetries delay remaining attempt).delays.enumFrom attempt) →
      ∃ e, op ad.1 = .error e ∧ isAuthError e = false ∧
        ad.2 = delay * 2 ^ (ad.1 - 1)
  | 0, attempt, ad, had => by simp [withRetryAux] at had
  | remaining + 1, attempt, ad, had => by
    have ih := withRetryAux_delays op maxRetries delay remaining (attempt + 1)
    cases hop : op attempt with
    | ok v => simp [withRetryAux, hop] at had
    | error e =>
      simp only [withRetryAux, hop] at had
      split at had
      · simp at had
      · split at had
        · simp at had
        · next hnotauth _ =>
          simp only [List.enumFrom] at had
          rcases List.mem_cons.1 had with rfl | had
          · exact ⟨e, by simpa using hop, by simpa using hnotauth, rfl⟩
          · exact ih ad had

/-- If the very first operation outcome of `withRetry` is an
authentication error, the loop makes exactly that one attempt, sleeps
never, and surfaces the authentication failure immediately. -/
theorem withRetry_auth_immediate {α : Type} (op : Nat → Except (List Char) α)
    (maxRetries delay : Nat) (e : List Char)
    (hmax : 0 < maxRetries)
    (h1 : op 1 = .error e) (ha : isAuthError e = true) :
    (withRetry op maxRetries delay).result = .error (.authFailed e) ∧
    (withRetry op maxRetries delay).attempts = 1 ∧
    (withRetry op maxRetries delay).delays = [] := by
  obtain ⟨r, hr⟩ : ∃ r, maxRetries = r + 1 := ⟨maxRetries - 1, by omega⟩
  unfold withRetry
  rw [hr]
  simp [withRetryAux, h1, ha]

/-- Claim C6 (counterexample): the claim says an error classified as an
authentication failure is never retried and surfaces immediately.  In
`EmbeddingService.retryOperation` (one of the stage retry loops the
claim covers) an authentication error — here "Unauthorized: invalid API
key", which `isAuthError` classifies as such — is retried like any other
non-rate-limit error: with `maxRetries = 3` the operation is invoked 3
times with two fixed 1000 ms delays in between. -/
theorem claim_C6_counterexample :
    isAuthError "Unauthorized: invalid API key".toList = true ∧
    (retryOperation
        (fun _ => (.error "Unauthorized: invalid API key".toList :
          Except (List Char) Nat)) 3).attempts = 3 ∧
    (retryOperation
        (fun _ => (.error "Unauthorized: invalid API key".toList :
          Except (List Char) Nat)) 3).delays = [1000, 1000] := by
  refine ⟨by decide, by decide, by decide⟩

/-- Claim C6 (amended): for every stage attempt, the number of attempts
is bounded by `maxRetries` (default 3) in all three retry loops.  In the
service-level loops (`EmbeddingService.retryOperation`,
`ContextService.generateContextWithRetry`) a *thrown* error whose text
contains 'rate limit' is followed by an exponential `2^attempt * 1000` ms
backoff and any other error — authentication failures included, which
these loops retry — by a fixed 1000 ms delay (in
`generateContextWithRetry` a returned `success:false` result always gets
the fixed delay, whatever its text).  Only the provider-level
`BaseAIProvider.withRetry` never retries an error classified as an
authentication failure, surfacing it immediately as a hard failure; and
it delays every other retried error by `delay * 2^(attempt-1)` —
exponential backoff, not a fixed delay. -/
theorem claim_C6 {α : Type} (op wop : Nat → Except (List Char) α)
    (ctxOp : Nat → CtxAttempt) (maxRetries delay : Nat) :
    (retryOperation op maxRetries).attempts ≤ maxRetries ∧
    (generateContextWithRetry ctxOp maxRetries).attempts ≤ maxRetries ∧
    (withRetry wop maxRetries delay).attempts ≤ maxRetries ∧
    (∀ ad ∈ (retryOperation op maxRetries).delays.enumFrom 1,
      ∃ e, op ad.1 = .error e ∧
        ad.2 = (if isRateLimitMsg e then 2 ^ ad.1 * 1000 else 1000)) ∧
    (∀ ad ∈ (generateContextWithRetry ctxOp maxRetries).delays.enumFrom 1,
      (∃ msg, ctxOp ad.1 = .thrown msg ∧
        ad.2 = (if isRateLimitMsg msg then 2 ^ ad.1 * 1000 else 1000)) ∨
      (∃ err, ctxOp ad.1 = .ret false err ∧ ad.2 = 1000)) ∧
    (∀ ad ∈ (withRetry wop maxRetries delay).delays.enumFrom 1,
      ∃ e, wop ad.1 = .error e ∧ isAuthError e = false ∧
        ad.2 = delay * 2 ^ (ad.1 - 1)) ∧
    (∀ e, wop 1 = .error e → isAuthError e = true → 0 < maxRetries →
      (withRetry wop maxRetries delay).result = .error (.authFailed e) ∧
      (withRetry wop maxRetries delay).attempts = 1 ∧
      (withRetry wop maxRetries delay).delays = []) :=
  ⟨retryOperationAux_attempts op maxRetries maxRetries 1 none,
   generateContextWithRetryAux_attempts ctxOp maxRetries maxRetries 1 none,
   withRetryAux_attempts wop maxRetries delay maxRetries 1,
   fun ad had => retryOperationAux_delays op maxRetries maxRetries 1 none ad had,
   fun ad had => generateContextWithRetryAux_delays ctxOp maxRetries maxRetries 1 none ad had,
   fun ad had => withRetryAux_delays wop maxRetries delay maxRetries 1 ad had,
   fun e h1 ha hmax => withRetry_auth_immediate wop maxRetries delay e hmax h1 ha⟩

/-- Claim C6 witness: the amended theorem applied to concrete operations
(a rate-limited embedding call, a throwing context call and an
authentication failure at the provider level), checking the attempt
bound, one concrete rate-limit backoff delay and the immediate
authentication failure. -/
theorem claim_C6_witness :
    (retryOperation
        (fun _ => (.error "rate limit exceeded".toList : Except (List Char) Nat))
        3).attempts ≤ 3 ∧
    ((1, 2000) ∈ (retryOperation
        (fun _ => (.error "rate limit exceeded".toList : Except (List Char) Nat))
        3).delays.enumFrom 1 →
      ∃ e, (fun _ => (.error "rate limit exceeded".toList : Except (List Char) Nat))
            (1, 2000).1 = .error e ∧
        (1, 2000).2 = (if isRateLimitMsg e then 2 ^ (1, 2000).1 * 1000 else 1000)) ∧
    ((withRetry
        (fun _ => (.error "unauthorized".toList : Except (List Char) Nat))
        3 1000).result = .error (.authFailed "unauthorized".toList) ∧
      (withRetry
        (fun _ => (.error "unauthorized".toList : Except (List Char) Nat))
        3 1000).attempts = 1 ∧
      (withRetry
        (fun _ => (.error "unauthorized".toList : Except (List Char) Nat))
        3 1000).delays = []) :=
  ⟨(claim_C6 (fun _ => .error "rate limit exceeded".toList)
      (fun _ => .error "unauthorized".toList)
      (fun _ => .thrown "rate limit".toList) 3 1000).1,
   fun had => (claim_C6 (fun _ => .error "rate limit exceeded".toList)
      (fun _ => .error "unauthorized".toList)
      (fun _ => .thrown "rate limit".toList) 3 1000).2.2.2.1 (1, 2000) had,
   (claim_C6 (fun _ => .error "rate limit exceeded".toList)
      (fun _ => .error "unauthorized".toList)
      (fun _ => .thrown "rate limit".toList) 3 1000).2.2.2.2.2.2
     "unauthorized".toList rfl (by decide) (by decide)⟩

/-! ## `ChunkContentResolver` (`src/utils/chunk-content-resolver.ts`)

The file system is a finite map from paths to entries carrying the raw
content (`fs.readFile`), the stat size in bytes, the stat mtime (in ms,
`stats.mtime.getTime()`) and the `isFile` flag.  A missing path raises
`ENOENT`, which both `validateFileIntegrity` and the read path translate
to "File not found" (`EACCES` needs a permission model and is not
represented; its handling is textually identical).
`TextProcessor.extractText` (format selection by file extension, then
text cleanup involving Unicode NFKD normalization) is kept as an
abstract pure function parameter `extract`: every verified property
holds for an arbitrary extraction function. -/

structure FileEntry where
  raw : List Char
  size : Nat
  mtimeMs : Int
  isFile : Bool
deriving Repr, DecidableEq

structure Fs where
  files : List (String × FileEntry)
deriving Repr, DecidableEq

def Fs.stat? (fs : Fs) (p : String) : Option FileEntry :=
  fs.files.lookup p

/-- The fields of `Document` that the resolver reads.  `file_modified`
is stored as a date string and compared via `new Date(...).getTime()`;
it is modelled directly as the millisecond value, `none` when unset
(the `if (document.file_modified)` truthiness guard). -/
structure Document where
  filepath : String
  file_hash : String
  file_size : Nat
  file_modified : Option Int
deriving Repr, DecidableEq

/-- An entry of `fileContentCache`.  `lastModified` is `Date.now()` at
insertion time (modelled as 0 — it is never read; eviction uses map
insertion order). -/
structure CacheEntry where
  content : List Char
  lastModified : Int
  hash : String
deriving Repr, DecidableEq

/-- The result record of `validateFileIntegrity`. -/
structure IntegrityCheck where
  valid : Bool
  reason : Option String
deriving Repr, DecidableEq

/-- `ChunkContentResolver.validateFileIntegrity`: stat the file, then
check existence/kind, size, and — when recorded — the modification
time.  A hash comparison is deliberately not performed (the code
comments it would require reading the whole file). -/
def validateFileIntegrity (fs : Fs) (doc : Document) : IntegrityCheck :=
  match fs.stat? doc.filepath with
  | none => ⟨false, some "File not found"⟩
  | some st =>
    if !st.isFile then ⟨false, some "File no longer exists or is not a file"⟩
    else if st.size ≠ doc.file_size then ⟨false, some "File size has changed"⟩
    else match doc.file_modified with
      | some m =>
        if st.mtimeMs ≠ m then ⟨false, some "File has been modified"⟩
        else ⟨true, none⟩
      | none => ⟨true, none⟩

/-- `Map.prototype.set`: replace the (unique) entry with this key in
place, else append at the end of the insertion order. -/
def cacheSet : List (String × CacheEntry) → String → CacheEntry →
    List (String × CacheEntry)
  | [], k, e => [(k, e)]
  | (k', e') :: t, k, e =>
    if k' = k then (k, e) :: t else (k', e') :: cacheSet t k e

/-- `ChunkContentResolver.cacheFileContent`: when the cache is full
(`maxCacheSize = 10`) evict the first key in insertion order, then
insert. -/
def cacheFileContent (cache : List (String × CacheEntry)) (filepath : String)
    (content : List Char) (hash : String) : List (String × CacheEntry) :=
  let c := if 10 ≤ cache.length then cache.drop 1 else cache
  cacheSet c filepath ⟨content, 0, hash⟩

/-- The read-and-cache path of `getFileContent` (cache miss or stale
hash): validate integrity, read the file, extract its text, cache it
under the document's recorded hash. -/
def readAndCache (extract : List Char → List Char) (fs : Fs) (doc : Document)
    (cache : List (String × CacheEntry)) :
    Except String (List Char × List (String × CacheEntry)) :=
  let integ := validateFileIntegrity fs doc
  if integ.valid = false then
    .error ("File integrity check failed: " ++ integ.reason.getD "undefined")
  else
    match fs.stat? doc.filepath with
    | none => .error "File not found"
    | some fe =>
      let extracted := extract fe.raw
      .ok (extracted, cacheFileContent cache doc.filepath extracted doc.file_hash)

/-- `ChunkContentResolver.getFileContent`: a cached entry whose stored
hash equals the document's recorded hash is returned *without any
integrity check*; only the miss path validates and reads. -/
def getFileContent (extract : List Char → List Char) (fs : Fs) (doc : Document)
    (cache : List (String × CacheEntry)) :
    Except String (List Char × List (String × CacheEntry)) :=
  match cache.lookup doc.filepath with
  | some ce =>
    if ce.hash = doc.file_hash then .ok (ce.content, cache)
    else readAndCache extract fs doc cache
  | none => readAndCache extract fs doc cache

/-- `String.prototype.substring`: clamp both indices into `[0, length]`
and swap them when out of order. -/
def jsSubstring (l : List Char) (a b : Int) : List Char :=
  let na := min (max a 0).toNat l.length
  let nb := min (max b 0).toNat l.length
  (l.take (max na nb)).drop (min na nb)

/-- `ChunkContentResolver.extractChunkText`: bounds-check the stored
positions, then slice.  A `chunk_length` mismatch only logs a console
warning and still returns the text, so it does not appear in the
result. -/
def extractChunkText (content : List Char) (chunk : Chunk) :
    Except String (List Char) :=
  if chunk.start_position < 0 ∨ (content.length : Int) < chunk.end_position then
    .error "Chunk positions are out of bounds for file content"
  else if chunk.end_position ≤ chunk.start_position then
    .error "Invalid chunk positions: start >= end"
  else .ok (jsSubstring content chunk.start_position chunk.end_position)

/-- `ChunkContentResolver.getChunkText`. -/
def getChunkText (extract : List Char → List Char) (fs : Fs) (doc : Document)
    (cache : List (String × CacheEntry)) (chunk : Chunk) :
    Except String (List Char × List (String × CacheEntry)) :=
  match getFileContent extract fs doc cache with
  | .error e => .error e
  | .ok (content, cache') =>
    match extractChunkText content chunk with
    | .error e => .error e
    | .ok t => .ok (t, cache')

/-- The `chunks.map(chunk => ... extractChunkText ...)` inside
`resolveMultipleChunks`: the first extraction failure aborts the whole
batch. -/
def extractAll (content : List Char) : List Chunk →
    Except String (List (List Char))
  | [] => .ok []
  | c :: rest =>
    match extractChunkText content c with
    | .error e => .error e
    | .ok t =>
      match extractAll content rest with
      | .error e => .error e
      | .ok ts => .ok (t :: ts)

/-- `ChunkContentResolver.resolveMultipleChunks`: read and decode the
file once, then slice repeatedly; errors are wrapped in a
`FileError('Failed to resolve multiple chunks: ...')`.  (The source
returns `ChunkContent` records `{text, document, chunk}`; only the texts
are modelled, the other two fields echo the arguments.) -/
def resolveMultipleChunks (extract : List Char → List Char) (fs : Fs)
    (doc : Document) (cache : List (String × CacheEntry))
    (chunks : List Chunk) :
    Except String (List (List Char) × List (String × CacheEntry)) :=
  match getFileContent extract fs doc cache with
  | .error e => .error ("Failed to resolve multiple chunks: " ++ e)
  | .ok (content, cache') =>
    match extractAll content chunks with
    | .error e => .error ("Failed to resolve multiple chunks: " ++ e)
    | .ok texts => .ok (texts, cache')

theorem lookup_cacheSet_self :
    ∀ (c : List (String × CacheEntry)) (k : String) (e : CacheEntry),
      (cacheSet c k e).lookup k = some e
  | [], k, e => by simp [cacheSet, List.lookup]
  | (k', e') :: t, k, e => by
    by_cases hk : k' = k
    · subst hk
      simp [cacheSet, List.lookup]
    · have ih := lookup_cacheSet_self t k e
      have hkk : (k == k') = false := by simp [Ne.symm hk]
      simp [cacheSet, hk, List.lookup, hkk, ih]

theorem readAndCache_lookup (extract : List Char → List Char) (fs : Fs)
    (doc : Document) (cache : List (String × CacheEntry))
    (content : List Char) (cache' : List (String × CacheEntry))
    (h : readAndCache extract fs doc cache = .ok (content, cache')) :
    cache'.lookup doc.filepath = some ⟨content, 0, doc.file_hash⟩ := by
  simp only [readAndCache] at h
  by_cases hv : (validateFileIntegrity fs doc).valid = false
  · rw [if_pos hv] at h
    exact absurd h (by simp)
  · rw [if_neg hv] at h
    cases hst : fs.stat? doc.filepath with
    | none =>
      rw [hst] at h
      exact absurd h (by simp)
    | some fe =>
      rw [hst] at h
      simp only [Except.ok.injEq, Prod.mk.injEq] at h
      obtain ⟨h1, h2⟩ := h
      subst h1
      subst h2
      exact lookup_cacheSet_self _ doc.filepath _

/-- Once `getFileContent` has produced a content and an updated cache,
running it again over the updated cache hits the cache and returns the
very same content and cache. -/
theorem getFileContent_stable (extract : List Char → List Char) (fs : Fs)
    (doc : Document) (cache : List (String × CacheEntry))
    (content : List Char) (cache' : List (String × CacheEntry))
    (h : getFileContent extract fs doc cache = .ok (content, cache')) :
    getFileContent extract fs doc cache' = .ok (content, cache') := by
  have hra : readAndCache extract fs doc cache = .ok (content, cache') →
      getFileContent extract fs doc cache' = .ok (content, cache') := by
    intro hr
    have hl := readAndCache_lookup extract fs doc cache content cache' hr
    simp [getFileContent, hl]
  cases hl : cache.lookup doc.filepath with
  | none =>
    simp only [getFileContent, hl] at h
    exact hra h
  | some ce =>
    simp only [getFileContent, hl] at h
    split at h
    · next hhash =>
      injection h with h
      injection h with h1 h2
      subst h1
      subst h2
      simp only [getFileContent, hl, if_pos hhash]
    · exact hra h

/-- The value `extractChunkText` yields on success (default `[]` on the
error paths); used to state order-independence. -/
def extractVal (content : List Char) (c : Chunk) : List Char :=
  match extractChunkText content c with
  | .ok t => t
  | .error _ => []

theorem extractAll_ok (content : List Char) :
    ∀ (l : List Chunk) (ts : List (List Char)),
      extractAll content l = .ok ts →
      ts = l.map (extractVal content) ∧
        ∀ p ∈ l.zip ts, extractChunkText content p.1 = .ok p.2
  | [], ts, h => by
    simp [extractAll] at h
    subst h
    exact ⟨rfl, by simp⟩
  | c :: rest, ts, h => by
    unfold extractAll at h
    cases he : extractChunkText content c with
    | error e => rw [he] at h; exact absurd h (by simp)
    | ok t =>
      rw [he] at h
      cases hr : extractAll content rest with
      | error e => rw [hr] at h; exact absurd h (by simp)
      | ok ts' =>
        rw [hr] at h
        simp only [Except.ok.injEq] at h
        subst h
        obtain ⟨hmap, hmem⟩ := extractAll_ok content rest ts' hr
        refine ⟨?_, ?_⟩
        · simp [List.map_cons, ← hmap, extractVal, he]
        · intro p hp
          rcases List.mem_cons.1 (by simpa [List.zip_cons_cons] using hp) with rfl | hp'
          · exact he
          · exact hmem p hp'

theorem zip_map_self {α β : Type} (f : α → β) :
    ∀ l : List α, l.zip (l.map f) = l.map (fun a => (a, f a))
  | [] => rfl
  | a :: t => by simp [zip_map_self f t]

theorem getChunkText_of (extract : List Char → List Char) (fs : Fs)
    (doc : Document) (cache cache'' : List (String × CacheEntry))
    (content t : List Char) (ch : Chunk)
    (hgc : getFileContent extract fs doc cache = .ok (content, cache''))
    (he : extractChunkText content ch = .ok t) :
    getChunkText extract fs doc cache ch = .ok (t, cache'') := by
  simp only [getChunkText, hgc, he]

/-- Claim C9: when `resolveMultipleChunks` succeeds on a batch of chunks
of one document, it returns, chunk by chunk, exactly the text that
`getChunkText` returns for each chunk individually — whether the
individual calls start from the same cache or from the batch's updated
cache — and the chunk-to-text assignment is independent of the batch
order (any permutation of the batch yields the correspondingly permuted
texts). -/
theorem claim_C9 (extract : List Char → List Char) (fs : Fs) (doc : Document)
    (cache : List (String × CacheEntry)) (chunks : List Chunk)
    (texts : List (List Char)) (cache' : List (String × CacheEntry))
    (h : resolveMultipleChunks extract fs doc cache chunks = .ok (texts, cache')) :
    texts.length = chunks.length ∧
    (∀ p ∈ chunks.zip texts,
      getChunkText extract fs doc cache p.1 = .ok (p.2, cache')) ∧
    (∀ p ∈ chunks.zip texts,
      getChunkText extract fs doc cache' p.1 = .ok (p.2, cache')) ∧
    (∀ (chunks₂ : List Chunk) (texts₂ : List (List Char))
        (cache₂ : List (String × CacheEntry)),
      chunks₂.Perm chunks →
      resolveMultipleChunks extract fs doc cache chunks₂ = .ok (texts₂, cache₂) →
      (chunks₂.zip texts₂).Perm (chunks.zip texts)) := by
  cases hgc : getFileContent extract fs doc cache with
  | error e =>
    simp only [resolveMultipleChunks, hgc] at h
    exact absurd h (by simp)
  | ok pc =>
    obtain ⟨content, cacheX⟩ := pc
    simp only [resolveMultipleChunks, hgc] at h
    cases hea : extractAll content chunks with
    | error e =>
      simp only [hea] at h
      exact absurd h (by simp)
    | ok ts =>
      simp only [hea, Except.ok.injEq, Prod.mk.injEq] at h
      obtain ⟨h1, h2⟩ := h
      rw [← h1, ← h2]
      obtain ⟨hmap, hmem⟩ := extractAll_ok content chunks ts hea
      have hzip : chunks.zip ts
          = chunks.map (fun c => (c, extractVal content c)) := by
        rw [hmap, zip_map_self]
      refine ⟨?_, ?_, ?_, ?_⟩
      · rw [hmap, List.length_map]
      · intro p hp
        exact getChunkText_of extract fs doc cache cacheX content p.2 p.1 hgc
          (hmem p hp)
      · intro p hp
        exact getChunkText_of extract fs doc cacheX cacheX content p.2 p.1
          (getFileContent_stable extract fs doc cache content cacheX hgc)
          (hmem p hp)
      · intro chunks₂ texts₂ cache₂ hperm h₂
        simp only [resolveMultipleChunks, hgc] at h₂
        cases hea₂ : extractAll content chunks₂ with
        | error e =>
          simp only [hea₂] at h₂
          exact absurd h₂ (by simp)
        | ok ts₂ =>
          simp only [hea₂, Except.ok.injEq, Prod.mk.injEq] at h₂
          obtain ⟨h1₂, _⟩ := h₂
          rw [← h1₂]
          obtain ⟨hmap₂, _⟩ := extractAll_ok content chunks₂ ts₂ hea₂
          have hzip₂ : chunks₂.zip ts₂
              = chunks₂.map (fun c => (c, extractVal content c)) := by
            rw [hmap₂, zip_map_self]
          rw [hzip, hzip₂]
          exact hperm.map _

/-- Claim C9 witness: a two-chunk batch over a concrete file resolves
successfully, and the theorem yields its conclusions for it. -/
theorem claim_C9_witness :
    resolveMultipleChunks id ⟨[("/d.txt", ⟨"hello world".toList, 11, 0, true⟩)]⟩
        ⟨"/d.txt", "h1", 11, none⟩ []
        [⟨1, 0, 0, 5, 5, .pending⟩, ⟨2, 1, 6, 11, 5, .pending⟩]
      = .ok (["hello".toList, "world".toList],
          [("/d.txt", ⟨"hello world".toList, 0, "h1"⟩)]) ∧
    (["hello".toList, "world".toList] : List (List Char)).length
      = ([⟨1, 0, 0, 5, 5, .pending⟩, ⟨2, 1, 6, 11, 5, .pending⟩] : List Chunk).length :=
  ⟨by rfl,
   (claim_C9 id ⟨[("/d.txt", ⟨"hello world".toList, 11, 0, true⟩)]⟩
      ⟨"/d.txt", "h1", 11, none⟩ []
      [⟨1, 0, 0, 5, 5, .pending⟩, ⟨2, 1, 6, 11, 5, .pending⟩]
      ["hello".toList, "world".toList]
      [("/d.txt", ⟨"hello world".toList, 0, "h1"⟩)] (by rfl)).1⟩

/-! ## Claim C1: the integrity gate -/

/-- Claim C1 (counterexample): the claim says that before any content —
cached or freshly read — is returned, the file's current size and mtime
are compared against the document's recorded values, and a mismatch
fails the read.  Concretely: the document records size 100, the file on
disk now has size 150, so `validateFileIntegrity` duly reports
"File size has changed" — yet `getChunkText` happily returns text from
the cache, because a cache hit whose stored hash matches the document's
recorded hash skips the integrity check entirely. -/
theorem claim_C1_counterexample :
    validateFileIntegrity ⟨[("/d.txt", ⟨"new raw".toList, 150, 5, true⟩)]⟩
        ⟨"/d.txt", "h1", 100, some 5⟩
      = ⟨false, some "File size has changed"⟩ ∧
    getChunkText id ⟨[("/d.txt", ⟨"new raw".toList, 150, 5, true⟩)]⟩
        ⟨"/d.txt", "h1", 100, some 5⟩
        [("/d.txt", ⟨"cached content".toList, 0, "h1"⟩)]
        ⟨1, 0, 0, 4, 4, .pending⟩
      = .ok ("cach".toList, [("/d.txt", ⟨"cached content".toList, 0, "h1"⟩)]) := by
  refine ⟨by decide, by rfl⟩

/-- Claim C1 (amended): when the file's stat size differs from the
document's recorded size, `validateFileIntegrity` returns
`{valid: false, reason: "File size has changed"}`; and `getChunkText`
fails with the corresponding `FileIntegrityError` — but only on a cache
miss (no cached entry whose stored hash equals the document's recorded
hash).  A cache hit with a matching hash is trusted and returned without
consulting the file system at all, so a size change alone does not make
a cached read fail. -/
theorem claim_C1 (extract : List Char → List Char) (fs : Fs) (doc : Document)
    (cache : List (String × CacheEntry)) (chunk : Chunk) (st : FileEntry)
    (h1 : fs.stat? doc.filepath = some st)
    (h2 : st.isFile = true)
    (h3 : st.size ≠ doc.file_size) :
    validateFileIntegrity fs doc = ⟨false, some "File size has changed"⟩ ∧
    ((∀ ce, cache.lookup doc.filepath = some ce → ce.hash ≠ doc.file_hash) →
      getChunkText extract fs doc cache chunk
        = .error "File integrity check failed: File size has changed") ∧
    (∀ ce, cache.lookup doc.filepath = some ce → ce.hash = doc.file_hash →
      ∀ fs' : Fs, getChunkText extract fs doc cache chunk
        = getChunkText extract fs' doc cache chunk) := by
  have hv : validateFileIntegrity fs doc
      = ⟨false, some "File size has changed"⟩ := by
    simp [validateFileIntegrity, h1, h2, h3]
  refine ⟨hv, ?_, ?_⟩
  · intro hmiss
    have hrac : readAndCache extract fs doc cache
        = .error "File integrity check failed: File size has changed" := by
      simp [readAndCache, hv]
    cases hl : cache.lookup doc.filepath with
    | none => simp [getChunkText, getFileContent, hl, hrac]
    | some ce =>
      have := hmiss ce hl
      simp [getChunkText, getFileContent, hl, this, hrac]
  · intro ce hce hhash fs'
    simp [getChunkText, getFileContent, hce, hhash]

/-- Claim C1 witness: the amended theorem applied to the concrete
size-changed scenario of the counterexample. -/
theorem claim_C1_witness :
    (⟨[("/d.txt", ⟨"new raw".toList, 150, 5, true⟩)]⟩ : Fs).stat? "/d.txt"
      = some ⟨"new raw".toList, 150, 5, true⟩ ∧
    (⟨"new raw".toList, 150, 5, true⟩ : FileEntry).isFile = true ∧
    (⟨"new raw".toList, 150, 5, true⟩ : FileEntry).size ≠ (100 : Nat) ∧
    validateFileIntegrity ⟨[("/d.txt", ⟨"new raw".toList, 150, 5, true⟩)]⟩
        ⟨"/d.txt", "h1", 100, some 5⟩
      = ⟨false, some "File size has changed"⟩ :=
  ⟨by decide, by decide, by decide,
   (claim_C1 id ⟨[("/d.txt", ⟨"new raw".toList, 150, 5, true⟩)]⟩
      ⟨"/d.txt", "h1", 100, some 5⟩ [] ⟨1, 0, 0, 4, 4, .pending⟩
      ⟨"new raw".toList, 150, 5, true⟩ (by decide) (by decide) (by decide)).1⟩

/-! ## `TextChunker.preprocessText` and the strategy dispatch -/

/-- The `\r\n → \n` and `\r → \n` replacements (line-ending
normalization). -/
def normalizeNewlines : List Char → List Char
  | [] => []
  | '\r' :: '\n' :: rest => '\n' :: normalizeNewlines rest
  | '\r' :: rest => '\n' :: normalizeNewlines rest
  | c :: rest => c :: normalizeNewlines rest

/-- The `[ \t]+ → ' '` replacement, as a single pass; `inRun` records
whether the current position continues a space/tab run whose
replacement space has already been emitted. -/
def collapseSpacesGo (inRun : Bool) : List Char → List Char
  | [] => []
  | c :: rest =>
    if c == ' ' || c == '\t' then
      if inRun then collapseSpacesGo true rest
      else ' ' :: collapseSpacesGo true rest
    else c :: collapseSpacesGo false rest

def collapseSpaces (l : List Char) : List Char :=
  collapseSpacesGo false l

/-- The `\n{3,} → \n\n` replacement, as a single pass; `run` counts the
newlines of the current run already seen (a run's newlines beyond the
second are dropped). -/
def collapseNewlinesGo (run : Nat) : List Char → List Char
  | [] => []
  | c :: rest =>
    if c == '\n' then
      if 2 ≤ run then collapseNewlinesGo (run + 1) rest
      else '\n' :: collapseNewlinesGo (run + 1) rest
    else c :: collapseNewlinesGo 0 rest

def collapseNewlines (l : List Char) : List Char :=
  collapseNewlinesGo 0 l

/-- `TextChunker.preprocessText`: normalize line endings, collapse
horizontal whitespace, cap newline runs at two, trim. -/
def preprocessText (text : List Char) : List Char :=
  jsTrim (collapseNewlines (collapseSpaces (normalizeNewlines text)))

/-! ## Sentence strategy (`TextChunker.chunkBySentence`) -/

def isPunct (c : Char) : Bool := c == '.' || c == '!' || c == '?'

/-- Length of the maximal run of characters satisfying `p` starting at
position `i`. -/
def runLength (text : List Char) (p : Char → Bool) (i : Nat) : Nat :=
  if h : i < text.length then
    if p (charAt text i) then runLength text p (i + 1) + 1 else 0
  else 0
termination_by text.length - i

theorem runLength_le (text : List Char) (p : Char → Bool) (i : Nat) :
    runLength text p i ≤ text.length - i := by
  rw [runLength]
  split
  · next hlen =>
    split
    · have ih := runLength_le text p (i + 1)
      omega
    · omega
  · omega
termination_by text.length - i
decreasing_by all_goals omega

theorem runLength_pos (text : List Char) (p : Char → Bool) (i : Nat)
    (hi : i < text.length) (hp : p (charAt text i) = true) :
    0 < runLength text p i := by
  rw [runLength]
  simp [hi, hp]

theorem runLength_all (text : List Char) (p : Char → Bool) (i d : Nat)
    (hd : d < runLength text p i) : p (charAt text (i + d)) = true := by
  rw [runLength] at hd
  split at hd
  · next hlen =>
    split at hd
    · next hp =>
      match d with
      | 0 => simpa using hp
      | e + 1 =>
        have := runLength_all text p (i + 1) e (by omega)
        simpa [show i + (e + 1) = i + 1 + e by omega] using this
    · omega
  · omega
termination_by text.length - i
decreasing_by all_goals omega

/-- A sentence produced by `splitIntoSentences` (positions are
non-negative array offsets). -/
structure Sentence where
  text : List Char
  startPosition : Nat
  endPosition : Nat
deriving Repr, DecidableEq

/-- `text.slice(a, b)` for natural positions. -/
def sliceNat (l : List Char) (a b : Nat) : List Char :=
  (l.take b).drop a

/-- The next match of `/([.!?]+)\s+/` at or after `pos`, as
`(matchIndex, punctuationRunEnd, matchEnd)`.  Scanning position by
position implements the regex's leftmost-match rule: the punctuation and
whitespace classes are disjoint, so a candidate that fails at the start
of a punctuation run also fails at every later start inside it. -/
def findSentenceMatch (text : List Char) (pos : Nat) : Option (Nat × Nat × Nat) :=
  if h : pos < text.length then
    if isPunct (charAt text pos) then
      if hq : pos + runLength text isPunct pos < text.length ∧
          isJsWs (charAt text (pos + runLength text isPunct pos)) = true then
        some (pos, pos + runLength text isPunct pos,
          pos + runLength text isPunct pos +
            runLength text isJsWs (pos + runLength text isPunct pos))
      else findSentenceMatch text (pos + 1)
    else findSentenceMatch text (pos + 1)
  else none
termination_by text.length - pos

theorem findSentenceMatch_spec (text : List Char) (pos p q r : Nat)
    (h : findSentenceMatch text pos = some (p, q, r)) :
    pos ≤ p ∧ p < q ∧ q < r ∧ r ≤ text.length := by
  rw [findSentenceMatch] at h
  split at h
  · next hpos =>
    split at h
    · next hpunct =>
      split at h
      · next hq =>
        simp only [Option.some.injEq, Prod.mk.injEq] at h
        obtain ⟨rfl, rfl, rfl⟩ := h
        have h1 := runLength_pos text isPunct pos hpos hpunct
        have h2 := runLength_pos text isJsWs _ hq.1 hq.2
        have h3 := runLength_le text isJsWs (pos + runLength text isPunct pos)
        refine ⟨le_refl pos, by omega, by omega, by omega⟩
      · have := findSentenceMatch_spec text (pos + 1) p q r h
        omega
    · have := findSentenceMatch_spec text (pos + 1) p q r h
      omega
  · exact absurd h (by simp)
termination_by text.length - pos
decreasing_by all_goals omega

/-- `TextChunker.splitIntoSentences`: repeatedly find the next
`/([.!?]+)\s+/` match; each sentence is `text.slice(lastIndex, endIndex)`
where `endIndex` is the end of the punctuation run, and the new
`lastIndex` is the end of the whole match (past the whitespace); a final
sentence covers any tail after the last match.  Sentences whose trimmed
text is empty are skipped. -/
def splitIntoSentencesAux (text : List Char) (lastIndex : Nat) : List Sentence :=
  match hm : findSentenceMatch text lastIndex with
  | some (_, q, r) =>
    (if (jsTrim (sliceNat text lastIndex q)).length > 0 then
      [⟨jsTrim (sliceNat text lastIndex q), lastIndex, q⟩]
    else []) ++ splitIntoSentencesAux text r
  | none =>
    if lastIndex < text.length then
      if (jsTrim (text.drop lastIndex)).length > 0 then
        [⟨jsTrim (text.drop lastIndex), lastIndex, text.length⟩]
      else []
    else []
termination_by text.length - lastIndex
decreasing_by
  have := findSentenceMatch_spec text lastIndex _ _ _ hm
  omega

def splitIntoSentences (text : List Char) : List Sentence :=
  splitIntoSentencesAux text 0

theorem splitIntoSentencesAux_wf (text : List Char) (lastIndex : Nat) :
    ∀ s ∈ splitIntoSentencesAux text lastIndex,
      lastIndex ≤ s.startPosition ∧ s.startPosition < s.endPosition ∧
        s.endPosition ≤ text.length := by
  intro s hs
  rw [splitIntoSentencesAux] at hs
  split at hs
  · next p q r hm =>
    have hspec := findSentenceMatch_spec text lastIndex p q r hm
    rw [List.mem_append] at hs
    rcases hs with hs | hs
    · split at hs
      · simp only [List.mem_singleton] at hs
        subst hs
        refine ⟨le_refl _, ?_, ?_⟩ <;> simp only <;> omega
      · exact absurd hs (by simp)
    · have := splitIntoSentencesAux_wf text r s hs
      omega
  · next hm =>
    split at hs
    · split at hs
      · next hlast _ =>
        simp only [List.mem_singleton] at hs
        subst hs
        exact ⟨le_refl _, hlast, le_refl _⟩
      · exact absurd hs (by simp)
    · exact absurd hs (by simp)
termination_by text.length - lastIndex
decreasing_by all_goals omega

theorem splitIntoSentencesAux_sorted (text : List Char) (lastIndex : Nat) :
    List.Pairwise (fun a b => a.endPosition ≤ b.startPosition)
      (splitIntoSentencesAux text lastIndex) := by
  rw [splitIntoSentencesAux]
  split
  · next p q r hm =>
    have hspec := findSentenceMatch_spec text lastIndex p q r hm
    rw [List.pairwise_append]
    refine ⟨?_, splitIntoSentencesAux_sorted text r, ?_⟩
    · split
      · exact List.pairwise_singleton _ _
      · exact List.Pairwise.nil
    · intro a ha b hb
      have hbwf := splitIntoSentencesAux_wf text r b hb
      split at ha
      · simp only [List.mem_singleton] at ha
        subst ha
        simp only
        omega
      · exact absurd ha (by simp)
  · split
    · split
      · exact List.pairwise_singleton _ _
      · exact List.Pairwise.nil
    · exact List.Pairwise.nil
termination_by text.length - lastIndex
decreasing_by all_goals omega

/-- The inner sentence-accumulation loop: starting at sentence `i` with
accumulated `currentChunk` and current `endPos`, keep appending
sentences (space-separated once the chunk is nonempty) until the test
chunk would exceed `chunkSize` while the current chunk is nonempty.
Returns the final `(i, currentChunk, endPos)`. -/
def buildSentenceChunk (sentences : List Sentence) (chunkSize : Int)
    (i : Nat) (currentChunk : List Char) (endPos : Nat) : Nat × List Char × Nat :=
  if h : i < sentences.length then
    if ((currentChunk ++ (if currentChunk.length > 0 then [' '] else []) ++
          (sentences.get ⟨i, h⟩).text).length : Int) > chunkSize ∧ currentChunk.length > 0 then
      (i, currentChunk, endPos)
    else
      buildSentenceChunk sentences chunkSize (i + 1)
        (currentChunk ++ (if currentChunk.length > 0 then [' '] else []) ++
          (sentences.get ⟨i, h⟩).text)
        (sentences.get ⟨i, h⟩).endPosition
  else (i, currentChunk, endPos)
termination_by sentences.length - i

theorem buildSentenceChunk_spec (sentences : List Sentence) (chunkSize : Int) (L : Nat)
    (hwf : ∀ s ∈ sentences, s.startPosition < s.endPosition ∧ s.endPosition ≤ L)
    (hsorted : List.Pairwise (fun a b => a.endPosition ≤ b.startPosition) sentences)
    (i : Nat) (chunk0 : List Char) (end0 : Nat)
    (hend0 : end0 ≤ L)
    (hlb : ∀ j (hj : j < sentences.length), i ≤ j →
      end0 ≤ (sentences.get ⟨j, hj⟩).endPosition) :
    end0 ≤ (buildSentenceChunk sentences chunkSize i chunk0 end0).2.2 ∧
    (buildSentenceChunk sentences chunkSize i chunk0 end0).2.2 ≤ L ∧
    (chunk0 = [] → ∀ h : i < sentences.length,
      (sentences.get ⟨i, h⟩).endPosition ≤
        (buildSentenceChunk sentences chunkSize i chunk0 end0).2.2) := by
  rw [buildSentenceChunk]
  split
  · next h =>
    by_cases hfull : ((chunk0 ++ (if chunk0.length > 0 then [' '] else []) ++
        (sentences.get ⟨i, h⟩).text).length : Int) > chunkSize ∧ chunk0.length > 0
    · rw [if_pos hfull]
      refine ⟨le_refl _, hend0, ?_⟩
      intro hc
      rw [hc] at hfull
      simp at hfull
    · rw [if_neg hfull]
      have hmemi := List.get_mem sentences i h
      have hwfi := hwf _ hmemi
      have hlb' : ∀ j (hj : j < sentences.length), i + 1 ≤ j →
          (sentences.get ⟨i, h⟩).endPosition ≤ (sentences.get ⟨j, hj⟩).endPosition := by
        intro j hj hij
        have hpg := List.pairwise_iff_get.mp hsorted ⟨i, h⟩ ⟨j, hj⟩ (by simpa using hij)
        have hwfj := hwf _ (List.get_mem sentences j hj)
        omega
      have hrec := buildSentenceChunk_spec sentences chunkSize L hwf hsorted (i + 1)
        (chunk0 ++ (if chunk0.length > 0 then [' '] else []) ++ (sentences.get ⟨i, h⟩).text)
        (sentences.get ⟨i, h⟩).endPosition hwfi.2 hlb'
      have hstep : end0 ≤ (sentences.get ⟨i, h⟩).endPosition := hlb i h (le_refl i)
      exact ⟨le_trans hstep hrec.1, hrec.2.1, fun _ _ => hrec.1⟩
  · next h =>
    refine ⟨le_refl _, hend0, ?_⟩
    intro _ h'
    exact absurd h' h
termination_by sentences.length - i
decreasing_by all_goals omega

/-- The backtrack count: walking down from sentence `i-1`, count
sentences until the accumulated character count reaches
`overlapChars`. -/
def countBack (sentences : List Sentence) (overlapChars : Int) :
    Nat → Int → Nat → Nat
  | 0, _, count => count
  | j + 1, chars, count =>
    if chars < overlapChars then
      countBack sentences overlapChars j
        (chars + ((sentences.getD j ⟨[], 0, 0⟩).text.length : Int)) (count + 1)
    else count

/-- The post-push index update of `chunkBySentence`:
`i = max(i - backtrackSentences, i - floor(backtrackSentences / 2))`
(computed only when sentences remain). -/
def nextSentenceIndex (sentences : List Sentence) (overlap : Int)
    (i : Nat) (currentChunk : List Char) : Nat :=
  if i < sentences.length then
    max (i - countBack sentences (min overlap ((currentChunk.length / 2 : Nat) : Int)) i 0 0)
      (i - (countBack sentences (min overlap ((currentChunk.length / 2 : Nat) : Int)) i 0 0) / 2)
  else i

/-- The outer `chunkBySentence` loop over the sentence list.  `fuel`
bounds the number of iterations: the source loop need not terminate
(with `overlap = 0`, `backtrackSentences` is `0` and the index does not
advance), so any terminating model captures a finite prefix of the
emitted chunks. -/
def chunkBySentenceAux (sentences : List Sentence) (chunkSize overlap : Int) :
    Nat → Nat → Nat → List TextChunk
  | 0, _, _ => []
  | fuel + 1, i, chunkIndex =>
    if h : i < sentences.length then
      if (jsTrim (buildSentenceChunk sentences chunkSize i []
            (sentences.get ⟨i, h⟩).startPosition).2.1).length > 0 then
        ⟨jsTrim (buildSentenceChunk sentences chunkSize i []
            (sentences.get ⟨i, h⟩).startPosition).2.1,
          ((sentences.get ⟨i, h⟩).startPosition : Int),
          ((buildSentenceChunk sentences chunkSize i []
            (sentences.get ⟨i, h⟩).startPosition).2.2 : Int),
          chunkIndex⟩ ::
        chunkBySentenceAux sentences chunkSize overlap fuel
          (nextSentenceIndex sentences overlap
            (buildSentenceChunk sentences chunkSize i []
              (sentences.get ⟨i, h⟩).startPosition).1
            (buildSentenceChunk sentences chunkSize i []
              (sentences.get ⟨i, h⟩).startPosition).2.1)
          (chunkIndex + 1)
      else
        chunkBySentenceAux sentences chunkSize overlap fuel
          ((buildSentenceChunk sentences chunkSize i []
            (sentences.get ⟨i, h⟩).startPosition).1 + 1) chunkIndex
    else []

/-- `TextChunker.chunkBySentence`. -/
def chunkBySentence (options : ChunkingOptions) (text : List Char) (fuel : Nat) :
    List TextChunk :=
  chunkBySentenceAux (splitIntoSentences text) options.chunkSize options.overlap fuel 0 0

theorem chunkBySentenceAux_bounds (sentences : List Sentence) (chunkSize overlap : Int)
    (L : Nat)
    (hwf : ∀ s ∈ sentences, s.startPosition < s.endPosition ∧ s.endPosition ≤ L)
    (hsorted : List.Pairwise (fun a b => a.endPosition ≤ b.startPosition) sentences) :
    ∀ fuel i chunkIndex, ∀ c ∈ chunkBySentenceAux sentences chunkSize overlap fuel i chunkIndex,
      0 ≤ c.startPosition ∧ c.startPosition < c.endPosition ∧ c.endPosition ≤ (L : Int) := by
  intro fuel
  induction fuel with
  | zero =>
    intro i ci c hc
    exact absurd hc (by simp [chunkBySentenceAux])
  | succ fuel ih =>
    intro i ci c hc
    rw [chunkBySentenceAux] at hc
    split at hc
    · next h =>
      split at hc
      · next htrim =>
        have hmemi := List.get_mem sentences i h
        have hwfi := hwf _ hmemi
        have hlb : ∀ j (hj : j < sentences.length), i ≤ j →
            (sentences.get ⟨i, h⟩).startPosition ≤ (sentences.get ⟨j, hj⟩).endPosition := by
          intro j hj hij
          rcases Nat.eq_or_lt_of_le hij with heq | hlt
          · subst heq
            omega
          · have hpg := List.pairwise_iff_get.mp hsorted ⟨i, h⟩ ⟨j, hj⟩ (by simpa using hlt)
            have hwfj := hwf _ (List.get_mem sentences j hj)
            omega
        have hspec := buildSentenceChunk_spec sentences chunkSize L hwf hsorted i []
          (sentences.get ⟨i, h⟩).startPosition (by omega) hlb
        have hiend := hspec.2.2 rfl h
        rcases List.mem_cons.mp hc with rfl | hc
        · refine ⟨?_, ?_, ?_⟩ <;> simp only <;> omega
        · exact ih _ _ c hc
      · exact ih _ _ c hc
    · exact absurd hc (by simp)

/-! ## Paragraph strategy (`TextChunker.chunkByParagraph`) -/

/-- Backtracking of the greedy `\s*` of `/\n\s*\n/`: the largest offset
`k` below `w` (the whitespace-run length after the opening newline) at
which the closing `\n` can sit. -/
def lastNlOffset (text : List Char) (start w : Nat) : Option Nat :=
  (List.range w).reverse.find? (fun k => charAt text (start + k) == '\n')

/-- The next match of `/\n\s*\n/` at or after `pos`, as
`(matchStart, matchEnd)`.  The closing `\n` must lie inside the
whitespace run following the opening `\n` (the character right after the
run is not whitespace, hence not a newline), and the greedy `\s*` places
it as late as possible. -/
def findParaSep (text : List Char) (pos : Nat) : Option (Nat × Nat) :=
  if h : pos < text.length then
    if charAt text pos == '\n' then
      match lastNlOffset text (pos + 1) (runLength text isJsWs (pos + 1)) with
      | some k => some (pos, pos + 1 + k + 1)
      | none => findParaSep text (pos + 1)
    else findParaSep text (pos + 1)
  else none
termination_by text.length - pos

theorem lastNlOffset_spec (text : List Char) (start w k : Nat)
    (h : lastNlOffset text start w = some k) :
    k < w ∧ charAt text (start + k) = '\n' := by
  have hmem := List.mem_of_find?_eq_some h
  have hp := List.find?_some h
  simp only [List.mem_reverse, List.mem_range] at hmem
  exact ⟨hmem, by simpa using hp⟩

theorem findParaSep_spec (text : List Char) (pos s e : Nat)
    (h : findParaSep text pos = some (s, e)) :
    pos ≤ s ∧ s + 2 ≤ e ∧ e ≤ text.length ∧
      ∀ x, s ≤ x → x < e → isJsWs (charAt text x) = true := by
  rw [findParaSep] at h
  split at h
  · next hpos =>
    split at h
    · next hnl =>
      split at h
      · next k hk =>
        simp only [Option.some.injEq, Prod.mk.injEq] at h
        obtain ⟨rfl, rfl⟩ := h
        obtain ⟨hkw, hknl⟩ := lastNlOffset_spec text (pos + 1) _ k hk
        have hle := runLength_le text isJsWs (pos + 1)
        refine ⟨le_refl _, by omega, by omega, ?_⟩
        intro x hsx hxe
        rcases Nat.eq_or_lt_of_le hsx with heq | hlt
        · rw [← heq]
          rw [beq_iff_eq] at hnl
          rw [hnl]
          decide
        · have := runLength_all text isJsWs (pos + 1) (x - (pos + 1)) (by omega)
          simpa [show pos + 1 + (x - (pos + 1)) = x by omega] using this
      · obtain ⟨a1, a2, a3, a4⟩ := findParaSep_spec text (pos + 1) s e h
        exact ⟨by omega, a2, a3, a4⟩
    · obtain ⟨a1, a2, a3, a4⟩ := findParaSep_spec text (pos + 1) s e h
      exact ⟨by omega, a2, a3, a4⟩
  · exact absurd h (by simp)
termination_by text.length - pos
decreasing_by all_goals omega

/-- `text.split(/\n\s*\n/)`, keeping each piece's starting offset. -/
def splitParaPieces (text : List Char) (cur : Nat) : List (Nat × List Char) :=
  match hm : findParaSep text cur with
  | some (s, e) => (cur, sliceNat text cur s) :: splitParaPieces text e
  | none => [(cur, text.drop cur)]
termination_by text.length - cur
decreasing_by
  have := findParaSep_spec text cur _ _ hm
  omega

/-- Shape of the piece list produced by `splitParaPieces`: each piece is
the slice between its offset and the next separator, separators are
all-whitespace regions of width at least two, and the last piece runs to
the end of the text. -/
inductive PiecesOk (text : List Char) : Nat → List (Nat × List Char) → Prop where
  | last : ∀ cur, PiecesOk text cur [(cur, text.drop cur)]
  | cons : ∀ cur s e rest,
      cur ≤ s → s + 2 ≤ e → e ≤ text.length →
      (∀ x, s ≤ x → x < e → isJsWs (charAt text x) = true) →
      PiecesOk text e rest →
      PiecesOk text cur ((cur, sliceNat text cur s) :: rest)

theorem splitParaPieces_ok (text : List Char) (cur : Nat) :
    PiecesOk text cur (splitParaPieces text cur) := by
  rw [splitParaPieces]
  split
  · next s e hm =>
    obtain ⟨h1, h2, h3, h4⟩ := findParaSep_spec text cur s e hm
    exact PiecesOk.cons cur s e _ h1 h2 h3 h4 (splitParaPieces_ok text e)
  · exact PiecesOk.last cur
termination_by text.length - cur
decreasing_by all_goals omega

theorem charAt_drop (l : List Char) (i j : Nat) :
    charAt (l.drop i) j = charAt l (i + j) := by
  simp [charAt, List.getD_eq_getD_get?, List.get?_drop]

theorem charAt_append_left (l1 l2 : List Char) (j : Nat) (h : j < l1.length) :
    charAt (l1 ++ l2) j = charAt l1 j := by
  simp [charAt, List.getD_eq_getD_get?, List.getElem?_append_left h]

theorem charAt_append_right (l1 l2 : List Char) (d : Nat) :
    charAt (l1 ++ l2) (l1.length + d) = charAt l2 d := by
  simp [charAt, List.getD_eq_getD_get?,
    List.getElem?_append_right (Nat.le_add_right l1.length d)]

theorem charAt_mem (l : List Char) (j : Nat) (h : j < l.length) : charAt l j ∈ l := by
  rw [charAt, List.getD_eq_get _ _ h]
  exact List.get_mem l j h

theorem dropWhile_head_not (p : Char → Bool) :
    ∀ (l : List Char) (a : Char) (t : List Char), l.dropWhile p = a :: t → p a = false
  | [], a, t => by
    intro h
    simp [List.dropWhile] at h
  | c :: rest, a, t => by
    intro h
    rw [List.dropWhile_cons] at h
    split at h
    · exact dropWhile_head_not p rest a t h
    · next hpc =>
      cases h
      simpa using hpc

/-- The trimmed list, with the trailing whitespace it drops. -/
theorem jsTrim_eq_mid (l : List Char) :
    l.dropWhile isJsWs =
      jsTrim l ++ ((l.dropWhile isJsWs).reverse.takeWhile isJsWs).reverse := by
  have h3 : (l.dropWhile isJsWs).reverse =
      (l.dropWhile isJsWs).reverse.takeWhile isJsWs ++
        (l.dropWhile isJsWs).reverse.dropWhile isJsWs :=
    (List.takeWhile_append_dropWhile isJsWs (l.dropWhile isJsWs).reverse).symm
  calc l.dropWhile isJsWs
      = (l.dropWhile isJsWs).reverse.reverse := (List.reverse_reverse _).symm
    _ = ((l.dropWhile isJsWs).reverse.takeWhile isJsWs ++
          (l.dropWhile isJsWs).reverse.dropWhile isJsWs).reverse := by rw [← h3]
    _ = ((l.dropWhile isJsWs).reverse.dropWhile isJsWs).reverse ++
          ((l.dropWhile isJsWs).reverse.takeWhile isJsWs).reverse :=
        List.reverse_append _ _
    _ = jsTrim l ++ ((l.dropWhile isJsWs).reverse.takeWhile isJsWs).reverse := rfl

/-- Every list splits as all-whitespace lead, its trim, and
all-whitespace tail. -/
theorem jsTrim_decomp (l : List Char) :
    ∃ lead tail, l = lead ++ jsTrim l ++ tail ∧
      (∀ c ∈ lead, isJsWs c = true) ∧ (∀ c ∈ tail, isJsWs c = true) := by
  refine ⟨l.takeWhile isJsWs,
    ((l.dropWhile isJsWs).reverse.takeWhile isJsWs).reverse, ?_, ?_, ?_⟩
  · have h2 : List.takeWhile isJsWs l ++ List.dropWhile isJsWs l = l :=
      List.takeWhile_append_dropWhile isJsWs l
    conv_lhs => rw [← h2]
    rw [List.append_assoc]
    nth_rewrite 1 [jsTrim_eq_mid l]
    rfl
  · intro c hc
    exact List.mem_takeWhile_imp hc
  · intro c hc
    rw [List.mem_reverse] at hc
    exact List.mem_takeWhile_imp hc

/-- The first character of a nonempty trim is not whitespace. -/
theorem jsTrim_head_not_ws (l : List Char) (a : Char) (t : List Char)
    (h : jsTrim l = a :: t) : isJsWs a = false := by
  have hm := jsTrim_eq_mid l
  rw [h, List.cons_append] at hm
  exact dropWhile_head_not isJsWs l a _ hm

/-- Does `needle` occur in `text` starting exactly at position `x`? -/
def occursAt (needle text : List Char) (x : Nat) : Bool :=
  needle.isPrefixOf (text.drop x)

/-- First position at or after `start` (clamped to the text length by the
caller) at which `needle` occurs. -/
def findOccurrence (text needle : List Char) (start : Nat) : Option Nat :=
  if start ≤ text.length then
    if occursAt needle text start then some start
    else if start = text.length then none
    else findOccurrence text needle (start + 1)
  else none
termination_by text.length + 1 - start
decreasing_by all_goals omega

/-- `String.prototype.indexOf(needle, pos)`: `-1` when absent, with the
search start clamped into `[0, length]`. -/
def jsIndexOf (text needle : List Char) (pos : Int) : Int :=
  match findOccurrence text needle (min (max pos 0).toNat text.length) with
  | some x => (x : Int)
  | none => -1

theorem occursAt_of_drop (needle rest text : List Char) (x : Nat)
    (h : text.drop x = needle ++ rest) : occursAt needle text x = true := by
  rw [occursAt, h]
  exact List.isPrefixOf_iff_prefix.mpr (List.prefix_append _ _)

theorem occursAt_cons (a : Char) (t : List Char) (text : List Char) (x : Nat)
    (h : occursAt (a :: t) text x = true) :
    x < text.length ∧ charAt text x = a := by
  rw [occursAt] at h
  cases hdrop : text.drop x with
  | nil =>
    rw [hdrop] at h
    simp [List.isPrefixOf] at h
  | cons b rest =>
    rw [hdrop] at h
    simp only [List.isPrefixOf, Bool.and_eq_true, beq_iff_eq] at h
    constructor
    · by_contra hlen
      rw [List.drop_eq_nil_of_le (by omega)] at hdrop
      exact absurd hdrop.symm (List.cons_ne_nil b rest)
    · have hx : charAt (text.drop x) 0 = charAt text (x + 0) := charAt_drop text x 0
      rw [hdrop] at hx
      simpa [charAt, h.1] using hx.symm

theorem findOccurrence_eq (text needle : List Char) (start y : Nat)
    (hy : occursAt needle text y = true)
    (hsy : start ≤ y) (hylen : y ≤ text.length)
    (hno : ∀ x, start ≤ x → x < y → occursAt needle text x = false) :
    findOccurrence text needle start = some y := by
  rw [findOccurrence]
  rcases Nat.eq_or_lt_of_le hsy with heq | hlt
  · subst heq
    rw [if_pos (by omega), if_pos hy]
  · rw [if_pos (by omega), if_neg, if_neg (by omega)]
    · exact findOccurrence_eq text needle (start + 1) y hy (by omega) hylen
        (fun x h1 h2 => hno x (by omega) h2)
    · rw [hno start (le_refl start) hlt]
      simp
termination_by y - start
decreasing_by all_goals omega

/-- On the whitespace gap before a real occurrence whose first character
is not whitespace, `indexOf` finds exactly the real occurrence. -/
theorem jsIndexOf_finds (text trimmed : List Char) (c rs : Nat) (a : Char)
    (t : List Char)
    (hhead : trimmed = a :: t) (hnws : isJsWs a = false)
    (hocc : occursAt trimmed text rs = true)
    (hcrs : c ≤ rs)
    (hws : ∀ x, c ≤ x → x < rs → isJsWs (charAt text x) = true) :
    jsIndexOf text trimmed (c : Int) = (rs : Int) := by
  have hrslen : rs < text.length := by
    rw [hhead] at hocc
    exact (occursAt_cons a t text rs hocc).1
  have hclamp : (min (max (c : Int) 0).toNat text.length) = c := by
    rw [max_eq_left (by positivity)]
    simp only [Int.toNat_natCast]
    omega
  rw [jsIndexOf, hclamp,
    findOccurrence_eq text trimmed c rs hocc hcrs (by omega) ?_]
  intro x h1 h2
  by_contra hocc'
  rw [Bool.not_eq_false, hhead] at hocc'
  have := (occursAt_cons a t text x hocc').2
  have hwx := hws x h1 h2
  rw [this, hnws] at hwx
  exact absurd hwx (by simp)

theorem sliceNat_length (text : List Char) (cur s : Nat) (h2 : s ≤ text.length) :
    (sliceNat text cur s).length = s - cur := by
  simp [sliceNat, List.length_take]
  omega

theorem drop_eq_slice_append (text : List Char) (cur s : Nat)
    (h1 : cur ≤ s) (h2 : s ≤ text.length) :
    text.drop cur = sliceNat text cur s ++ text.drop s := by
  rw [sliceNat]
  conv_lhs => rw [← List.take_append_drop s text]
  rw [List.drop_append_of_le_length (by simp [List.length_take]; omega)]

/-- Characters of a piece, looked up in the whole text. -/
theorem piece_charAt (text piece rest : List Char) (cur : Nat)
    (hdrop : text.drop cur = piece ++ rest) (j : Nat) (hj : j < piece.length) :
    charAt text (cur + j) = charAt piece j := by
  rw [← charAt_drop text cur j, hdrop, charAt_append_left _ _ _ hj]

/-- A piece whose trim is empty is all whitespace in the text. -/
theorem paraPiece_ws (text piece rest : List Char) (cur : Nat)
    (hdrop : text.drop cur = piece ++ rest)
    (hz : jsTrim piece = []) :
    ∀ x, cur ≤ x → x < cur + piece.length → isJsWs (charAt text x) = true := by
  intro x hx1 hx2
  obtain ⟨lead, tail, hdec, hlead, htail⟩ := jsTrim_decomp piece
  rw [hz] at hdec
  have hall : ∀ ch ∈ piece, isJsWs ch = true := by
    intro ch hch
    rw [hdec] at hch
    simp only [List.append_nil, List.mem_append] at hch
    rcases hch with hm | hm
    · exact hlead _ hm
    · exact htail _ hm
  have hj : x - cur < piece.length := by omega
  rw [show x = cur + (x - cur) by omega, piece_charAt text piece rest cur hdrop _ hj]
  exact hall _ (charAt_mem piece (x - cur) hj)

/-- Processing a nonempty-trim piece: `indexOf` finds the real start of
the trimmed text, which lies inside the piece, and everything after the
trimmed text up to the piece end is whitespace. -/
theorem paraPiece_facts (text piece rest : List Char) (cur c : Nat)
    (hdrop : text.drop cur = piece ++ rest)
    (hc : c ≤ cur)
    (hws : ∀ x, c ≤ x → x < cur → isJsWs (charAt text x) = true)
    (hne : jsTrim piece ≠ []) :
    ∃ rs : Nat,
      jsIndexOf text (jsTrim piece) (c : Int) = (rs : Int) ∧
      cur ≤ rs ∧
      rs + (jsTrim piece).length ≤ cur + piece.length ∧
      (∀ x, rs + (jsTrim piece).length ≤ x → x < cur + piece.length →
        isJsWs (charAt text x) = true) := by
  obtain ⟨lead, tail, hdec, hlead, htail⟩ := jsTrim_decomp piece
  obtain ⟨tr, htr⟩ : ∃ tr, jsTrim piece = tr := ⟨_, rfl⟩
  rw [htr] at hdec hne ⊢
  obtain ⟨a, t, hhead⟩ : ∃ a t, tr = a :: t := by
    cases hcons : tr with
    | nil => exact absurd hcons hne
    | cons a t => exact ⟨a, t, rfl⟩
  have hnws : isJsWs a = false :=
    jsTrim_head_not_ws piece a t (htr.trans hhead)
  have hlen : piece.length = lead.length + tr.length + tail.length := by
    rw [hdec]
    simp only [List.length_append]
  have hdroprs : text.drop (cur + lead.length) = tr ++ (tail ++ rest) := by
    rw [← List.drop_drop, hdrop, hdec]
    simp only [List.append_assoc]
    exact List.drop_left _ _
  have hocc := occursAt_of_drop tr (tail ++ rest) text (cur + lead.length) hdroprs
  have hwsrs : ∀ x, c ≤ x → x < cur + lead.length → isJsWs (charAt text x) = true := by
    intro x h1 h2
    by_cases hxc : x < cur
    · exact hws x h1 hxc
    · have hj : x - cur < piece.length := by omega
      rw [show x = cur + (x - cur) by omega,
        piece_charAt text piece rest cur hdrop _ hj, hdec,
        charAt_append_left (lead ++ tr) tail (x - cur)
          (by simp only [List.length_append]; omega),
        charAt_append_left lead tr (x - cur) (by omega)]
      exact hlead _ (charAt_mem lead _ (by omega))
  refine ⟨cur + lead.length,
    jsIndexOf_finds text tr c (cur + lead.length) a t hhead hnws hocc (by omega) hwsrs,
    Nat.le_add_right _ _, by omega, ?_⟩
  intro x h1 h2
  have hj : x - cur < piece.length := by omega
  rw [show x = cur + (x - cur) by omega,
    piece_charAt text piece rest cur hdrop _ hj, hdec,
    show x - cur = (lead ++ tr).length + (x - cur - lead.length - tr.length) by
      simp only [List.length_append]; omega,
    charAt_append_right]
  exact htail _ (charAt_mem tail _ (by omega))

/-- A paragraph produced by `splitIntoParagraphs` (positions are JS
numbers: `startPosition` comes from `indexOf`, which could in principle
be `-1`). -/
structure Paragraph where
  text : List Char
  startPosition : Int
  endPosition : Int
deriving Repr, DecidableEq

/-- The `for` loop of `splitIntoParagraphs` over the split pieces:
skip pieces with empty trim; otherwise locate the trimmed text with
`indexOf` from `currentPosition` and advance `currentPosition` to its
end. -/
def splitIntoParagraphsAux (text : List Char) :
    List (List Char) → Int → List Paragraph
  | [], _ => []
  | piece :: rest, currentPosition =>
    if (jsTrim piece).length > 0 then
      ⟨jsTrim piece, jsIndexOf text (jsTrim piece) currentPosition,
        jsIndexOf text (jsTrim piece) currentPosition + ((jsTrim piece).length : Int)⟩ ::
        splitIntoParagraphsAux text rest
          (jsIndexOf text (jsTrim piece) currentPosition + ((jsTrim piece).length : Int))
    else splitIntoParagraphsAux text rest currentPosition

/-- `TextChunker.splitIntoParagraphs`. -/
def splitIntoParagraphs (text : List Char) : List Paragraph :=
  splitIntoParagraphsAux text ((splitParaPieces text 0).map Prod.snd) 0

theorem splitIntoParagraphsAux_ok (text : List Char)
    (pieces : List (Nat × List Char)) (cur : Nat)
    (hok : PiecesOk text cur pieces) :
    ∀ (c : Nat), c ≤ cur →
      (∀ x, c ≤ x → x < cur → isJsWs (charAt text x) = true) →
      (∀ q ∈ splitIntoParagraphsAux text (pieces.map Prod.snd) (c : Int),
        (cur : Int) ≤ q.startPosition ∧
        q.endPosition = q.startPosition + (q.text.length : Int) ∧
        q.endPosition ≤ (text.length : Int) ∧
        q.text ≠ []) ∧
      List.Chain' (fun a b => a.endPosition + 2 ≤ b.startPosition)
        (splitIntoParagraphsAux text (pieces.map Prod.snd) (c : Int)) := by
  induction hok with
  | last cur =>
    intro c hc hws
    by_cases hne : (jsTrim (text.drop cur)).length > 0
    · have hnenil : jsTrim (text.drop cur) ≠ [] := by
        intro hnil
        rw [hnil] at hne
        simp at hne
      have hpne : text.drop cur ≠ [] := by
        intro hnil
        rw [hnil] at hnenil
        exact hnenil rfl
      have hcur : cur < text.length := by
        by_contra hcl
        exact hpne (List.drop_eq_nil_of_le (by omega))
      obtain ⟨rs, hidx, hrs1, hrs2, hrs3⟩ := paraPiece_facts text (text.drop cur) [] cur c
        ((List.append_nil _).symm) hc hws hnenil
      have hdl : (text.drop cur).length = text.length - cur := List.length_drop cur text
      simp only [List.map_cons, List.map_nil, splitIntoParagraphsAux, if_pos hne, hidx]
      constructor
      · intro q hq
        simp only [List.mem_singleton] at hq
        subst hq
        refine ⟨by simp only; omega, rfl, by simp only; omega, ?_⟩
        simp only
        intro hnil
        rw [hnil] at hne
        simp at hne
      · exact List.chain'_singleton _
    · simp only [List.map_cons, List.map_nil, splitIntoParagraphsAux, if_neg hne]
      exact ⟨fun q hq => absurd hq (by simp), List.chain'_nil⟩
  | cons cur s e rest h1 h2 h3 h4 hrest ih =>
    intro c hc hws
    have hdrop := drop_eq_slice_append text cur s h1 (by omega)
    have hplen : (sliceNat text cur s).length = s - cur :=
      sliceNat_length text cur s (by omega)
    by_cases hne : (jsTrim (sliceNat text cur s)).length > 0
    · have hnenil : jsTrim (sliceNat text cur s) ≠ [] := by
        intro hnil
        rw [hnil] at hne
        simp at hne
      obtain ⟨rs, hidx, hrs1, hrs2, hrs3⟩ := paraPiece_facts text (sliceNat text cur s)
        (text.drop s) cur c hdrop hc hws hnenil
      have hce : rs + (jsTrim (sliceNat text cur s)).length ≤ e := by omega
      have hwse : ∀ x, rs + (jsTrim (sliceNat text cur s)).length ≤ x → x < e →
          isJsWs (charAt text x) = true := by
        intro x hx1 hx2
        by_cases hxs : x < s
        · exact hrs3 x hx1 (by omega)
        · exact h4 x (by omega) hx2
      obtain ⟨ihmem, ihchain⟩ := ih (rs + (jsTrim (sliceNat text cur s)).length) hce hwse
      have hcast : (rs : Int) + ((jsTrim (sliceNat text cur s)).length : Int) =
          ((rs + (jsTrim (sliceNat text cur s)).length : Nat) : Int) := by
        push_cast
        ring
      simp only [List.map_cons, splitIntoParagraphsAux, if_pos hne, hidx, hcast]
      constructor
      · intro q hq
        rcases List.mem_cons.mp hq with rfl | hq
        · refine ⟨by simp only; omega, by simp only; push_cast; omega,
            by simp only; push_cast; omega, ?_⟩
          simp only
          intro hnil
          rw [hnil] at hne
          simp at hne
        · obtain ⟨m1, m2, m3, m4⟩ := ihmem q hq
          exact ⟨by omega, m2, m3, m4⟩
      · refine List.chain'_cons'.mpr ⟨?_, ihchain⟩
        intro y hy
        obtain ⟨m1, m2, m3, m4⟩ := ihmem y (List.mem_of_mem_head? hy)
        simp only
        push_cast
        omega
    · have hz : jsTrim (sliceNat text cur s) = [] := by
        rcases List.eq_nil_or_concat (jsTrim (sliceNat text cur s)) with hq | ⟨l, a, hq⟩
        · exact hq
        · rw [hq] at hne
          simp at hne
      have hwsP := paraPiece_ws text (sliceNat text cur s) (text.drop s) cur hdrop hz
      have hws' : ∀ x, c ≤ x → x < e → isJsWs (charAt text x) = true := by
        intro x hx1 hx2
        by_cases hxc : x < cur
        · exact hws x hx1 hxc
        · by_cases hxs : x < s
          · exact hwsP x (by omega) (by omega)
          · exact h4 x (by omega) hx2
      obtain ⟨ihmem, ihchain⟩ := ih c (by omega) hws'
      simp only [List.map_cons, splitIntoParagraphsAux, if_neg hne]
      constructor
      · intro q hq
        obtain ⟨m1, m2, m3, m4⟩ := ihmem q hq
        exact ⟨by omega, m2, m3, m4⟩
      · exact ihchain

/-- Well-formedness of the paragraph list: non-negative in-bounds
positions, `endPosition = startPosition + length`, nonempty texts, and
a gap of at least two characters (the separator) between consecutive
paragraphs. -/
theorem splitIntoParagraphs_wf (text : List Char) :
    (∀ q ∈ splitIntoParagraphs text,
      0 ≤ q.startPosition ∧
      q.endPosition = q.startPosition + (q.text.length : Int) ∧
      q.endPosition ≤ (text.length : Int) ∧
      q.text ≠ []) ∧
    List.Chain' (fun a b => a.endPosition + 2 ≤ b.startPosition)
      (splitIntoParagraphs text) := by
  have h := splitIntoParagraphsAux_ok text (splitParaPieces text 0) 0
    (splitParaPieces_ok text 0) 0 (le_refl 0) (by intro x h1 h2; omega)
  simp only [Nat.cast_zero] at h
  rw [splitIntoParagraphs]
  exact ⟨fun q hq => h.1 q hq, h.2⟩

/-- `currentChunk + (currentChunk ? '\n\n' : '') + paragraph.text`. -/
def paraTestChunk (currentChunk ptext : List Char) : List Char :=
  currentChunk ++ (if currentChunk.length > 0 then ['\n', '\n'] else []) ++ ptext

theorem paraTestChunk_nil (p : List Char) : paraTestChunk [] p = p := by
  simp [paraTestChunk]

theorem paraTestChunk_length (c p : List Char) (h : c ≠ []) :
    (paraTestChunk c p).length = c.length + 2 + p.length := by
  have hpos : c.length > 0 := List.length_pos.mpr h
  rw [paraTestChunk, if_pos hpos]
  simp [List.length_append]
  omega

/-- The `chunkByParagraph` loop.  `fuel` bounds the number of
iterations (the source loop need not terminate: after a push the
paragraph index is not advanced, and the overlap seeding can make the
same paragraph overflow again forever); the final-chunk push after the
loop happens when the paragraph index has run off the list. -/
def chunkByParagraphAux (paragraphs : List Paragraph) (chunkSize overlap : Int) :
    Nat → List Char → Int → Nat → Nat → List TextChunk
  | 0, _, _, _, _ => []
  | fuel + 1, currentChunk, currentStartPos, chunkIndex, paragraphIndex =>
    -- the `!paragraph` null guard of the source never fires: the index is
    -- checked against the length before each access
    if paragraphIndex < paragraphs.length then
      if ((paraTestChunk currentChunk
            (paragraphs.getD paragraphIndex ⟨[], 0, 0⟩).text).length : Int) >
            chunkSize ∧ currentChunk.length > 0 then
        ⟨jsTrim currentChunk, currentStartPos,
          currentStartPos + (currentChunk.length : Int), chunkIndex⟩ ::
        (if overlap > 0 ∧ 0 < paragraphIndex then
          if ((paragraphs.getD (paragraphIndex - 1) ⟨[], 0, 0⟩).text.length : Int) ≤ overlap then
            chunkByParagraphAux paragraphs chunkSize overlap fuel
              (paragraphs.getD (paragraphIndex - 1) ⟨[], 0, 0⟩).text
              (paragraphs.getD (paragraphIndex - 1) ⟨[], 0, 0⟩).startPosition
              (chunkIndex + 1) paragraphIndex
          else
            chunkByParagraphAux paragraphs chunkSize overlap fuel []
              (paragraphs.getD paragraphIndex ⟨[], 0, 0⟩).startPosition
              (chunkIndex + 1) paragraphIndex
        else
          chunkByParagraphAux paragraphs chunkSize overlap fuel []
            (paragraphs.getD paragraphIndex ⟨[], 0, 0⟩).startPosition
            (chunkIndex + 1) paragraphIndex)
      else
        chunkByParagraphAux paragraphs chunkSize overlap fuel
          (paraTestChunk currentChunk (paragraphs.getD paragraphIndex ⟨[], 0, 0⟩).text)
          (if paraTestChunk currentChunk (paragraphs.getD paragraphIndex ⟨[], 0, 0⟩).text ==
              (paragraphs.getD paragraphIndex ⟨[], 0, 0⟩).text
            then (paragraphs.getD paragraphIndex ⟨[], 0, 0⟩).startPosition
            else currentStartPos)
          chunkIndex (paragraphIndex + 1)
    else
      if (jsTrim currentChunk).length > 0 then
        [⟨jsTrim currentChunk, currentStartPos,
          currentStartPos + (currentChunk.length : Int), chunkIndex⟩]
      else []

/-- `TextChunker.chunkByParagraph`. -/
def chunkByParagraph (options : ChunkingOptions) (text : List Char) (fuel : Nat) :
    List TextChunk :=
  chunkByParagraphAux (splitIntoParagraphs text) options.chunkSize options.overlap
    fuel [] 0 0 0

/-- Loop invariant of `chunkByParagraph`: a nonempty accumulated chunk
starts at a non-negative position and ends no later than the most
recently added paragraph. -/
def ParaChunkInv (paragraphs : List Paragraph) (currentChunk : List Char)
    (currentStartPos : Int) (paragraphIndex : Nat) : Prop :=
  currentChunk ≠ [] →
    0 ≤ currentStartPos ∧ 1 ≤ paragraphIndex ∧
    paragraphIndex - 1 < paragraphs.length ∧
    currentStartPos + (currentChunk.length : Int) ≤
      (paragraphs.getD (paragraphIndex - 1) ⟨[], 0, 0⟩).endPosition

theorem getD_mem_para (l : List Paragraph) (i : Nat) (h : i < l.length) :
    l.getD i ⟨[], 0, 0⟩ ∈ l := by
  rw [List.getD_eq_get _ _ h]
  exact List.get_mem l i h

theorem chain_getD_para (l : List Paragraph)
    (hchain : List.Chain' (fun a b => a.endPosition + 2 ≤ b.startPosition) l)
    (i : Nat) (h1 : i + 1 < l.length) :
    (l.getD i ⟨[], 0, 0⟩).endPosition + 2 ≤
      (l.getD (i + 1) ⟨[], 0, 0⟩).startPosition := by
  have hcg := List.chain'_iff_get.mp hchain i (by omega)
  rw [List.getD_eq_get _ _ (show i < l.length by omega), List.getD_eq_get _ _ h1]
  exact hcg

theorem chunkByParagraphAux_bounds (paragraphs : List Paragraph)
    (chunkSize overlap : Int) (L : Nat)
    (hmem : ∀ q ∈ paragraphs, 0 ≤ q.startPosition ∧
      q.endPosition = q.startPosition + (q.text.length : Int) ∧
      q.endPosition ≤ (L : Int) ∧ q.text ≠ [])
    (hchain : List.Chain' (fun a b => a.endPosition + 2 ≤ b.startPosition) paragraphs) :
    ∀ fuel currentChunk currentStartPos chunkIndex paragraphIndex,
      ParaChunkInv paragraphs currentChunk currentStartPos paragraphIndex →
      ∀ c ∈ chunkByParagraphAux paragraphs chunkSize overlap fuel
          currentChunk currentStartPos chunkIndex paragraphIndex,
        0 ≤ c.startPosition ∧ c.startPosition < c.endPosition ∧
          c.endPosition ≤ (L : Int) := by
  intro fuel
  induction fuel with
  | zero =>
    intro cc sp ci pi hinv c hc
    exact absurd hc (by simp [chunkByParagraphAux])
  | succ fuel ih =>
    intro cc sp ci pi hinv c hc
    rw [chunkByParagraphAux] at hc
    split at hc
    · next h =>
      split at hc
      · next hfull =>
        have hccne : cc ≠ [] := by
          intro hnil
          rw [hnil] at hfull
          simp at hfull
        obtain ⟨hsp, hpi1, hlt, hbound⟩ := hinv hccne
        have hq := hmem _ (getD_mem_para paragraphs (pi - 1) hlt)
        rcases List.mem_cons.mp hc with rfl | hc
        · have hl := hfull.2
          refine ⟨hsp, ?_, ?_⟩ <;> simp only <;> omega
        · split at hc
          · next hp =>
            split at hc
            · -- seed the next chunk with the previous paragraph
              refine ih _ _ _ _ ?_ c hc
              intro hne
              have hq' := hmem _ (getD_mem_para paragraphs (pi - 1) (by omega))
              exact ⟨hq'.1, by omega, by omega, by omega⟩
            · -- start empty at the current paragraph
              refine ih _ _ _ _ ?_ c hc
              intro hne
              exact absurd rfl hne
          · refine ih _ _ _ _ ?_ c hc
            intro hne
            exact absurd rfl hne
      · next hnotfull =>
        refine ih _ _ _ _ ?_ c hc
        intro hne
        have hq := hmem _ (getD_mem_para paragraphs pi h)
        by_cases hcc : cc = []
        · rw [hcc, paraTestChunk_nil] at hne ⊢
          rw [if_pos (by simp)]
          refine ⟨hq.1, by omega, by omega, ?_⟩
          simp only [Nat.add_sub_cancel]
          omega
        · have hccl := List.length_pos.mpr hcc
          have hbeq : (paraTestChunk cc (paragraphs.getD pi ⟨[], 0, 0⟩).text ==
              (paragraphs.getD pi ⟨[], 0, 0⟩).text) = false := by
            rw [beq_eq_false_iff_ne]
            intro heq
            have hlen := congrArg List.length heq
            rw [paraTestChunk_length cc _ hcc] at hlen
            omega
          rw [if_neg (by rw [hbeq]; exact Bool.false_ne_true)]
          obtain ⟨hsp, hpi1, hlt, hbound⟩ := hinv hcc
          have hcg := chain_getD_para paragraphs hchain (pi - 1) (by omega)
          rw [show pi - 1 + 1 = pi by omega] at hcg
          have htl := paraTestChunk_length cc (paragraphs.getD pi ⟨[], 0, 0⟩).text hcc
          refine ⟨hsp, by omega, by omega, ?_⟩
          simp only [Nat.add_sub_cancel, htl]
          push_cast
          omega
    · next h =>
      split at hc
      · next htrim =>
        simp only [List.mem_singleton] at hc
        subst hc
        have hccne : cc ≠ [] := by
          intro hnil
          rw [hnil] at htrim
          simp [jsTrim] at htrim
        obtain ⟨hsp, hpi1, hlt, hbound⟩ := hinv hccne
        have hq := hmem _ (getD_mem_para paragraphs (pi - 1) hlt)
        have hl := List.length_pos.mpr hccne
        refine ⟨hsp, ?_, ?_⟩ <;> simp only <;> omega
      · exact absurd hc (by simp)

/-! ## Claim C7: chunk position bounds for all strategies -/

theorem chunkByCharAux_bounds (text : List Char) (chunkSize overlap : Int)
    (hs : 0 < chunkSize) :
    ∀ (fuel : Nat) (start : Int) (idx : Nat), 0 ≤ start →
      ∀ c ∈ chunkByCharAux text chunkSize overlap fuel start idx,
        0 ≤ c.startPosition ∧ c.startPosition < c.endPosition ∧
          c.endPosition ≤ (text.length : Int) := by
  intro fuel
  induction fuel with
  | zero =>
    intro start idx h0 c hc
    exact absurd hc (by simp [chunkByCharAux])
  | succ fuel ih =>
    intro start idx h0 c hc
    simp only [chunkByCharAux] at hc
    split at hc
    · next hlt =>
      split at hc
      · simp only [List.mem_singleton] at hc
        subst hc
        refine ⟨h0, ?_, ?_⟩ <;> simp only <;> omega
      · rcases List.mem_cons.mp hc with rfl | hc
        · refine ⟨h0, ?_, ?_⟩ <;> simp only <;> omega
        · exact ih _ _ (by omega) c hc
    · exact absurd hc (by simp)

theorem chunkByCharacter_bounds (opts : ChunkingOptions) (text : List Char)
    (hs : 0 < opts.chunkSize) :
    ∀ c ∈ chunkByCharacter opts text,
      0 ≤ c.startPosition ∧ c.startPosition < c.endPosition ∧
        c.endPosition ≤ (text.length : Int) := by
  intro c hc
  rw [chunkByCharacter] at hc
  exact chunkByCharAux_bounds text opts.chunkSize opts.overlap hs _ 0 0 (le_refl 0) c
    (List.mem_of_mem_filter hc)

theorem chunkBySentence_bounds (opts : ChunkingOptions) (text : List Char) (fuel : Nat) :
    ∀ c ∈ chunkBySentence opts text fuel,
      0 ≤ c.startPosition ∧ c.startPosition < c.endPosition ∧
        c.endPosition ≤ (text.length : Int) := by
  intro c hc
  rw [chunkBySentence] at hc
  refine chunkBySentenceAux_bounds (splitIntoSentences text) opts.chunkSize opts.overlap
    text.length ?_ ?_ fuel 0 0 c hc
  · intro s hs
    exact ⟨(splitIntoSentencesAux_wf text 0 s hs).2.1,
      (splitIntoSentencesAux_wf text 0 s hs).2.2⟩
  · exact splitIntoSentencesAux_sorted text 0

theorem chunkByParagraph_bounds (opts : ChunkingOptions) (text : List Char) (fuel : Nat) :
    ∀ c ∈ chunkByParagraph opts text fuel,
      0 ≤ c.startPosition ∧ c.startPosition < c.endPosition ∧
        c.endPosition ≤ (text.length : Int) := by
  intro c hc
  rw [chunkByParagraph] at hc
  obtain ⟨hm, hch⟩ := splitIntoParagraphs_wf text
  exact chunkByParagraphAux_bounds (splitIntoParagraphs text) opts.chunkSize opts.overlap
    text.length hm hch fuel [] 0 0 0 (fun hne => absurd rfl hne) c hc

/-- `TextChunker.chunk`: preprocess, then dispatch on the strategy.
`fuel` bounds the loop iterations of the sentence and paragraph
strategies (whose source loops need not terminate); the character
strategy runs to completion regardless. -/
def TextChunker.chunk (options : ChunkingOptions) (text : List Char) (fuel : Nat) :
    List TextChunk :=
  match options.strategy with
  | Strategy.character => chunkByCharacter options (preprocessText text)
  | Strategy.sentence => chunkBySentence options (preprocessText text) fuel
  | Strategy.paragraph => chunkByParagraph options (preprocessText text) fuel

/-- C7: for every valid configuration (positive chunk size, overlap
non-negative and smaller than the chunk size, known strategy) and every
input text, every chunk produced by `TextChunker.chunk` — under any
iteration budget for the sentence and paragraph loops — satisfies
`0 ≤ startPosition < endPosition ≤ length` of the normalized text. -/
theorem claim_C7 (options : ChunkingOptions) (text : List Char) (fuel : Nat)
    (hvalid : ValidOptions options) :
    ∀ c ∈ TextChunker.chunk options text fuel,
      0 ≤ c.startPosition ∧ c.startPosition < c.endPosition ∧
        c.endPosition ≤ ((preprocessText text).length : Int) := by
  intro c hc
  obtain ⟨strategy, chunkSize, overlap⟩ := options
  cases strategy
  · exact chunkByCharacter_bounds _ _ hvalid.1 c hc
  · exact chunkBySentence_bounds _ _ fuel c hc
  · exact chunkByParagraph_bounds _ _ fuel c hc

theorem claim_C7_witness :
    ValidOptions ⟨Strategy.character, 5, 2⟩ ∧
    (0 ≤ (⟨"hello".toList, 0, 5, 0⟩ : TextChunk).startPosition ∧
      (⟨"hello".toList, 0, 5, 0⟩ : TextChunk).startPosition <
        (⟨"hello".toList, 0, 5, 0⟩ : TextChunk).endPosition ∧
      (⟨"hello".toList, 0, 5, 0⟩ : TextChunk).endPosition ≤
        ((preprocessText "hello world".toList).length : Int)) :=
  ⟨by decide,
    claim_C7 ⟨Strategy.character, 5, 2⟩ "hello world".toList 0 (by decide)
      ⟨"hello".toList, 0, 5, 0⟩ (by decide)⟩

end ZRag
